import Mathlib

/-!
# Verification of the `fuzzy-engine` Mamdani fuzzy-inference library

Shallow embedding of the TypeScript sources (`src/operators.ts`,
`src/defuzzification.ts`, `src/membership.ts`, `src/engine.ts`) over exact
rationals (`ℚ` stands in for JS `number`; all arithmetic the claims touch is
exact in the reference runs considered).

Sampling loops of the form `for (let x = min; x <= max; x += step)` are
embedded with an explicit fuel bound (`ptsAux`): the fuel chosen in
`samplePts` is provably sufficient whenever `step > 0`, so a `none` result
corresponds to a non-terminating loop in the source (`step ≤ 0` while
`min ≤ max`).  All fallible computations return `Option`/`Except`.
-/

set_option maxRecDepth 16000

namespace FuzzyEngine

/-- A membership function: JS `(x: number) => number`. -/
abbrev MF := ℚ → ℚ

/-! ## Operators (`src/operators.ts`) -/

/-- Embeds `Math.min(...values)` on a non-empty argument list (the engine only calls
it that way); the `[]` case is an arbitrary total-function default. -/
def jsMinList : List ℚ → ℚ
  | [] => 0
  | a :: t => t.foldl min a

/-- Embeds `Math.max(...values)` on a non-empty argument list. -/
def jsMaxList : List ℚ → ℚ
  | [] => 0
  | a :: t => t.foldl max a

/-- Embeds `tNormMin(...values)` = `Math.min(...values)`. -/
def tNormMin (vs : List ℚ) : ℚ := jsMinList vs

/-- Embeds `tNormProduct(...values)` = `values.reduce((acc, val) => acc * val, 1)`. -/
def tNormProduct (vs : List ℚ) : ℚ := vs.foldl (· * ·) 1

/-- Embeds `sNormMax(...values)` = `Math.max(...values)`. -/
def sNormMax (vs : List ℚ) : ℚ := jsMaxList vs

/-- Embeds `sNormSum(...values)` = `values.reduce((acc, val) => acc + val - acc * val, 0)`. -/
def sNormSum (vs : List ℚ) : ℚ := vs.foldl (fun acc v => acc + v - acc * v) 0

/-- AND (T-norm) methods exposed at the engine level (`AndMethod`). -/
inductive AndMethod | min | product
deriving DecidableEq

/-- OR (S-norm) methods exposed at the engine level (`OrMethod`). -/
inductive OrMethod | max | sum | probor
deriving DecidableEq

/-- Implication methods (`ImplicationMethod`). -/
inductive ImplMethod | min | product
deriving DecidableEq

/-- Aggregation methods (`AggregationMethod`). -/
inductive AggMethod | max | sum
deriving DecidableEq

/-- Defuzzification methods (`DefuzzificationMethod`). -/
inductive DefuzzMethod | centroid | bisector | mom | som | lom
deriving DecidableEq

/-- Embeds `getAndOperator` from `src/operators.ts` (the `default` branch of the
TS `switch` coincides with `min` and is unreachable for the closed enum). -/
def getAndOperator : AndMethod → List ℚ → ℚ
  | .min => tNormMin
  | .product => tNormProduct

/-- Embeds `getOrOperator` from `src/operators.ts` (`probor` is the same function as
`sum`, and the unreachable `default` is `max`). -/
def getOrOperator : OrMethod → List ℚ → ℚ
  | .max => sNormMax
  | .sum => sNormSum
  | .probor => sNormSum

/-! ## Sampling loops

`ptsAux fuel x mx st` produces the values visited by
`for (; x <= mx; x += st)`, or `none` when the fuel runs out — which, for the
fuel used below, happens exactly when the JS loop does not terminate. -/

def ptsAux : Nat → ℚ → ℚ → ℚ → Option (List ℚ)
  | 0, _, _, _ => none
  | fuel + 1, x, mx, st =>
      if x ≤ mx then (ptsAux fuel (x + st) mx st).map (x :: ·) else some []

/-- Downward variant for `for (let x = max; x >= mn; x -= st)`
(`largestOfMaximum`). -/
def ptsDownAux : Nat → ℚ → ℚ → ℚ → Option (List ℚ)
  | 0, _, _, _ => none
  | fuel + 1, x, mn, st =>
      if mn ≤ x then (ptsDownAux fuel (x - st) mn st).map (x :: ·) else some []

/-- Fuel sufficient for any terminating sampling loop at the given
resolution: with a positive step the loop visits at most `⌊resolution⌋ + 1`
points, and `⌊res⌋ ≤ res.num` for positive `res`. -/
def sampleFuel (res : ℚ) : Nat := res.num.toNat + 2

/-- The sample points `min, min+step, …` (`step = (max-min)/resolution`) of
every sampling routine in `src/operators.ts` / `src/defuzzification.ts`. -/
def samplePts (mn mx res : ℚ) : Option (List ℚ) :=
  ptsAux (sampleFuel res) mn mx ((mx - mn) / res)

/-- The points visited by the downward scan of `largestOfMaximum`. -/
def samplePtsDown (mn mx res : ℚ) : Option (List ℚ) :=
  ptsDownAux (sampleFuel res) mx mn ((mx - mn) / res)

/-! ## Set comparisons (`isSubset` / `isEqual`, `src/operators.ts`) -/

/-- Embeds `isSubset(mfA, mfB, range, resolution)`: returns `false` as soon as
`mfA(x) > mfB(x) + 1e-10` at a sample point, else `true`.  `none` models the
non-terminating loop. -/
def isSubsetO (mfA mfB : MF) (range : ℚ × ℚ) (res : ℚ) : Option Bool :=
  (samplePts range.1 range.2 res).map
    (·.all fun x => decide (mfA x ≤ mfB x + 1 / 10 ^ 10))

/-- Embeds `isEqual(mfA, mfB, range, resolution, tolerance = 1e-6)`: returns `false`
as soon as `|mfA(x) - mfB(x)| > tolerance` at a sample point. -/
def isEqualO (mfA mfB : MF) (range : ℚ × ℚ) (res : ℚ) : Option Bool :=
  (samplePts range.1 range.2 res).map
    (·.all fun x => decide (|mfA x - mfB x| ≤ 1 / 10 ^ 6))

/-! ## Defuzzifiers (`src/defuzzification.ts`) -/

/-- Embeds `centroid(mf, {min, max, resolution})`: `Σ x·μ(x) / Σ μ(x)` over the
samples, falling back to the midpoint when `Σ μ(x) = 0`. -/
def centroidO (mf : MF) (mn mx res : ℚ) : Option ℚ :=
  (samplePts mn mx res).map fun l =>
    let sumWeighted := (l.map fun x => x * mf x).sum
    let sumMembership := (l.map mf).sum
    if sumMembership = 0 then (mn + mx) / 2 else sumWeighted / sumMembership

/-- The second loop of `bisector`: walk the samples accumulating area and
return the first `x` at which the accumulated area reaches `half`. -/
def bisectorFind (mf : MF) (step half : ℚ) : List ℚ → ℚ → Option ℚ
  | [], _ => none
  | x :: rest, acc =>
      let acc' := acc + mf x * step
      if half ≤ acc' then some x else bisectorFind mf step half rest acc'

/-- Embeds `bisector(mf, {min, max, resolution})`: midpoint when the total area is
`0`, else the first sample where half the area is reached, else `max`. -/
def bisectorO (mf : MF) (mn mx res : ℚ) : Option ℚ :=
  (samplePts mn mx res).map fun l =>
    let step := (mx - mn) / res
    let totalArea := (l.map fun x => mf x * step).sum
    if totalArea = 0 then (mn + mx) / 2
    else match bisectorFind mf step (totalArea / 2) l 0 with
      | some x => x
      | none => mx

/-- One step of the `meanOfMaximum` scan: state is
`(maxMembership, maxPoints)`. -/
def momStep (mf : MF) (st : ℚ × List ℚ) (x : ℚ) : ℚ × List ℚ :=
  let mu := mf x
  if st.1 < mu then (mu, [x])
  else if |mu - st.1| < 1 / 10 ^ 10 then (st.1, st.2 ++ [x])
  else st

/-- Embeds `meanOfMaximum(mf, {min, max, resolution})`: mean of all samples whose
membership is within `1e-10` of the running maximum (seeded at `0`);
midpoint if that set is empty. -/
def momO (mf : MF) (mn mx res : ℚ) : Option ℚ :=
  (samplePts mn mx res).map fun l =>
    let p := l.foldl (momStep mf) (0, [])
    if p.2 = [] then (mn + mx) / 2 else p.2.sum / (p.2.length : ℚ)

/-- One step of the `smallestOfMaximum` / `largestOfMaximum` scans: state is
`(maxMembership, best x so far)`, updated only on a strict increase. -/
def maxScanStep (mf : MF) (st : ℚ × ℚ) (x : ℚ) : ℚ × ℚ :=
  if st.1 < mf x then (mf x, x) else st

/-- Embeds `smallestOfMaximum(mf, {min, max, resolution})`: left-to-right scan,
`smallestMax` seeded at `min`, updated at each strict increase of the
running maximum. -/
def somO (mf : MF) (mn mx res : ℚ) : Option ℚ :=
  (samplePts mn mx res).map fun l => (l.foldl (maxScanStep mf) (0, mn)).2

/-- Embeds `largestOfMaximum(mf, {min, max, resolution})`: right-to-left scan,
`largestMax` seeded at `max`. -/
def lomO (mf : MF) (mn mx res : ℚ) : Option ℚ :=
  (samplePtsDown mn mx res).map fun l => (l.foldl (maxScanStep mf) (0, mx)).2

/-- Embeds `defuzzify(mf, method, options)` = `getDefuzzifier(method)(mf, options)`;
the closed enum makes the `default: centroid` branch unreachable. -/
def defuzzO : DefuzzMethod → MF → ℚ → ℚ → ℚ → Option ℚ
  | .centroid => centroidO
  | .bisector => bisectorO
  | .mom => momO
  | .som => somO
  | .lom => lomO

/-! ## Membership-function factory (`src/membership.ts`) -/

/-- The function returned by `triangular(a, b, c)` (the constructor throws
unless `a ≤ b ∧ b ≤ c`; the returned closure itself is total). -/
def triangularF (a b c : ℚ) : MF := fun x =>
  if x ≤ a ∨ c ≤ x then 0
  else if x = b then 1
  else if x < b then (x - a) / (b - a)
  else (c - x) / (c - b)

/-! ## Engine data model (`src/engine.ts`, `src/types.ts`)

JS `Record`s are embedded as association lists in insertion order
(`Object.entries` iteration order); the `Map<string, Variable>` registry is
an insertion-ordered list with replace-on-rekey (`Map.set`) semantics. -/

/-- Antecedent value for one variable: a single term name or an array of
term names (`RuleCondition` value type `string | string[]`). -/
inductive AnteTerms
  | one (t : String)
  | many (ts : List String)
deriving DecidableEq

/-- A fuzzy IF-THEN rule (`FuzzyRule`). -/
structure Rule where
  ifs : List (String × AnteTerms)
  thens : List (String × String)
  weight : Option ℚ := none
  description : Option String := none
deriving DecidableEq

/-- Internal `Variable` record of the engine. -/
structure Variable where
  name : String
  sets : List (String × MF)
  range : ℚ × ℚ
  isOutput : Bool

/-- The engine's state and configuration (`FuzzyEngine` class fields);
`vars` embeds the `variables` registry (`variables` is reserved in Lean). -/
structure Engine where
  vars : List Variable
  rules : List Rule
  defuzzificationMethod : DefuzzMethod
  andMethod : AndMethod
  orMethod : OrMethod
  implicationMethod : ImplMethod
  aggregationMethod : AggMethod
  resolution : ℚ

/-- A freshly constructed engine (`new FuzzyEngine()` with no config). -/
def defaultEngine : Engine :=
  ⟨[], [], .centroid, .min, .max, .min, .max, 100⟩

/-- Embeds `this.variables.get(name)`. -/
def findVar (e : Engine) (n : String) : Option Variable :=
  e.vars.find? (fun v => v.name == n)

/-- Embeds `this.variables.set(name, v)`: replace in place if the key exists,
else append. -/
def setVar (vars : List Variable) (v : Variable) : List Variable :=
  if vars.any (fun w => w.name == v.name) then
    vars.map (fun w => if w.name == v.name then v else w)
  else vars ++ [v]

/-- Embeds `variable.sets[term]` (`undefined` ↦ `none`). -/
def lookupMF (sets : List (String × MF)) (t : String) : Option MF :=
  (sets.find? (fun p => p.1 == t)).map (·.2)

/-- The probe points of `inferRange`. -/
def testPoints : List ℚ := [-1000, -100, -10, 0, 10, 100, 1000]

/-- Embeds `inferRange(sets)`: `min`/`max` start at `0`/`100` and are pulled down /
up by every probe point at which some membership function exceeds `0.01`. -/
def inferRange (sets : List (String × MF)) : ℚ × ℚ :=
  sets.foldl
    (fun acc p =>
      testPoints.foldl
        (fun a x => if 1 / 100 < p.2 x then (min a.1 x, max a.2 x) else a)
        acc)
    (0, 100)

/-- Embeds `addVariable(name, sets, range?)`. -/
def addVariable (e : Engine) (name : String) (sets : List (String × MF))
    (range : Option (ℚ × ℚ)) : Engine :=
  let r := match range with | some r => r | none => inferRange sets
  { e with vars := setVar e.vars ⟨name, sets, r, false⟩ }

/-- Embeds `addOutput(name, sets, range?)`. -/
def addOutput (e : Engine) (name : String) (sets : List (String × MF))
    (range : Option (ℚ × ℚ)) : Engine :=
  let r := match range with | some r => r | none => inferRange sets
  { e with vars := setVar e.vars ⟨name, sets, r, true⟩ }

/-- The `throw` sites of `validateRule` (and of the introspection getters),
by kind: the spec's UnknownVariable / UnknownTerm / NotAnOutput. -/
inductive RuleError
  | unknownAnteVar (v : String)
  | unknownAnteTerm (v t : String)
  | unknownConsVar (v : String)
  | notAnOutput (v : String)
  | unknownConsTerm (v t : String)
deriving DecidableEq

/-- Embeds `validateRule`, antecedent half: entries checked in insertion order,
each variable first, then each of its terms in order. -/
def checkAnte (e : Engine) : List (String × AnteTerms) → Except RuleError Unit
  | [] => .ok ()
  | (v, ts) :: rest =>
    match findVar e v with
    | none => .error (.unknownAnteVar v)
    | some vr =>
      let termList := match ts with | .one t => [t] | .many l => l
      match termList.find? (fun t => (lookupMF vr.sets t).isNone) with
      | some t => .error (.unknownAnteTerm v t)
      | none => checkAnte e rest

/-- Whether one antecedent entry passes `validateRule`'s checks: its
variable is registered and each of its terms is known (the per-entry step
of `checkAnte`). -/
def anteEntryOk (e : Engine) (p : String × AnteTerms) : Bool :=
  match findVar e p.1 with
  | none => false
  | some vr =>
    ((match p.2 with | .one t => [t] | .many l => l).find?
      (fun t => (lookupMF vr.sets t).isNone)).isNone

/-- Embeds `validateRule`, consequent half. -/
def checkCons (e : Engine) : List (String × String) → Except RuleError Unit
  | [] => .ok ()
  | (v, t) :: rest =>
    match findVar e v with
    | none => .error (.unknownConsVar v)
    | some vr =>
      if !vr.isOutput then .error (.notAnOutput v)
      else if (lookupMF vr.sets t).isNone then .error (.unknownConsTerm v t)
      else checkCons e rest

/-- Embeds `validateRule(rule)`: antecedent checks, then consequent checks. -/
def validateRule (e : Engine) (r : Rule) : Except RuleError Unit :=
  match checkAnte e r.ifs with
  | .error err => .error err
  | .ok _ => checkCons e r.thens

/-- The error thrown by `validateRule(rule)`, if any. -/
def validateErr (e : Engine) (r : Rule) : Option RuleError :=
  match validateRule e r with
  | .error err => some err
  | .ok _ => none

/-- Embeds `addRule(rule)`: validate, then push; a thrown error leaves the rule
list untouched (the push is never reached). -/
def addRule (e : Engine) (r : Rule) : Except RuleError Engine :=
  match validateRule e r with
  | .error err => .error err
  | .ok _ => .ok { e with rules := e.rules ++ [r] }

/-- Embeds `addRules(rules)`: a plain loop over `addRule`; the pair returned is the
engine state when the loop stops (after the whole list, or at the first
thrown error) together with the error, if any. -/
def addRulesRun : Engine → List Rule → Engine × Option RuleError
  | e, [] => (e, none)
  | e, r :: rs =>
    match addRule e r with
    | .ok e1 => addRulesRun e1 rs
    | .error err => (e, some err)

/-! ## Evaluation pipeline (`src/engine.ts`) -/

/-- One `FuzzificationResult`. -/
structure FuzzRec where
  varName : String
  value : ℚ
  memberships : List (String × ℚ)

/-- Embeds `fuzzify(inputs)`: one record per input entry naming a registered input
variable; unknown names and output variables are skipped silently. -/
def fuzzify (e : Engine) (ins : List (String × ℚ)) : List FuzzRec :=
  ins.filterMap fun p =>
    match findVar e p.1 with
    | none => none
    | some vr =>
      if vr.isOutput then none
      else some ⟨p.1, p.2, vr.sets.map (fun s => (s.1, s.2 p.2))⟩

/-- Embeds `varMemberships[term] || 0`. -/
def lookupDeg (ms : List (String × ℚ)) (t : String) : ℚ :=
  ((ms.find? (fun p => p.1 == t)).map (·.2)).getD 0

/-- The `fuzzified` lookup table built at the top of `evaluateRules`. -/
def fuzzLookup (fz : List FuzzRec) (v : String) : Option (List (String × ℚ)) :=
  (fz.find? (fun f => f.varName == v)).map (·.memberships)

/-- Embeds `Array.isArray(terms) ? terms : [terms]`. -/
def anteTermList : AnteTerms → List String
  | .one t => [t]
  | .many ts => ts

/-- The strength of one antecedent clause: OR over a multi-term clause,
the single degree otherwise.  (`termStrengths[0]` of an empty JS array is
`undefined`; the embedding totalizes that unreachable-after-validation
corner to `0`.) -/
def clauseStrength (e : Engine) (ms : List (String × ℚ)) (ts : AnteTerms) : ℚ :=
  if 1 < ((anteTermList ts).map (lookupDeg ms)).length
  then getOrOperator e.orMethod ((anteTermList ts).map (lookupDeg ms))
  else ((anteTermList ts).map (lookupDeg ms)).headD 0

/-- The `antecedentStrengths` array built inside `evaluateRules`:
per-variable clause strengths, skipping the variables that were not
fuzzified (`continue`, not zero). -/
def antecedentStrengths (e : Engine) (fz : List FuzzRec) (r : Rule) : List ℚ :=
  r.ifs.filterMap fun p =>
    match fuzzLookup fz p.1 with
    | none => none
    | some ms => some (clauseStrength e ms p.2)

/-- The firing strength of one rule, as computed inside `evaluateRules`:
AND over the clause strengths (zero clauses ⇒ `0`), then the optional
weight factor. -/
def ruleFiring (e : Engine) (fz : List FuzzRec) (r : Rule) : ℚ :=
  let strengths := antecedentStrengths e fz r
  let base := if 0 < strengths.length then getAndOperator e.andMethod strengths else 0
  match r.weight with
  | some w => base * w
  | none => base

/-- One `RuleEvaluationResult`; `outputContributions` is the list of
`(outputVar, term, strength)` triples. -/
structure RuleEval where
  rule : Rule
  firingStrength : ℚ
  outputContributions : List (String × String × ℚ)
deriving DecidableEq

/-- Embeds `evaluateRules(fuzzification)`: one result per registered rule, with a
contribution `{term, strength = firingStrength}` per consequent entry. -/
def evaluateRules (e : Engine) (fz : List FuzzRec) : List RuleEval :=
  e.rules.map fun r =>
    let s := ruleFiring e fz r
    ⟨r, s, r.thens.map (fun c => (c.1, c.2, s))⟩

/-- Embeds `applyImplication(mf, strength)`: Mamdani clip (`min`) or Larsen scale
(`product`). -/
def applyImplication (m : ImplMethod) (mf : MF) (s : ℚ) : MF :=
  match m with
  | .min => fun x => min (mf x) s
  | .product => fun x => mf x * s

/-- The list of implied membership functions collected by `aggregate()` for
one output variable, in rule order; contributions whose variable or term is
missing from the registry are dropped (`continue`). -/
def impliedList (e : Engine) (evals : List RuleEval) (ov : String) : List MF :=
  (evals.flatMap (·.outputContributions)).filterMap fun c =>
    if c.1 == ov then
      match findVar e c.1 with
      | none => none
      | some vr => (lookupMF vr.sets c.2.1).map
          (fun mf => applyImplication e.implicationMethod mf c.2.2)
    else none

/-- Whether `aggregate()` creates a key for `ov` (it does so for every
contribution naming `ov`, before the registry lookups). -/
def mentionsOutput (evals : List RuleEval) (ov : String) : Bool :=
  evals.any (fun re => re.outputContributions.any (fun c => c.1 == ov))

/-- Embeds `aggregateMFs(mfs)`: constant `0` for no contribution, the function
itself for one, else pointwise `Math.max` or capped sum. -/
def aggregateMFs (m : AggMethod) (mfs : List MF) : MF :=
  match mfs with
  | [] => fun _ => 0
  | [mf] => mf
  | a :: b :: t =>
    match m with
    | .max => fun x => jsMaxList ((a :: b :: t).map (fun mf => mf x))
    | .sum => fun x => min 1 (((a :: b :: t).map (fun mf => mf x)).sum)

/-- The aggregated membership function of one output variable. -/
def aggregatedMF (e : Engine) (evals : List RuleEval) (ov : String) : MF :=
  aggregateMFs e.aggregationMethod (impliedList e evals ov)

/-- Embeds `evaluate(inputs)` seen as a mapping from output names to crisp values:
`evaluateMap e ins name` is the entry the returned record holds under
`name` (`none`: no entry — no rule consequent mentions `name`, or the
variable vanished from the registry — or a non-terminating defuzzification
loop). -/
def evaluateMap (e : Engine) (ins : List (String × ℚ)) (name : String) :
    Option ℚ :=
  let fz := fuzzify e ins
  let evals := evaluateRules e fz
  if mentionsOutput evals name then
    match findVar e name with
    | none => none
    | some vr =>
      defuzzO e.defuzzificationMethod (aggregatedMF e evals name)
        vr.range.1 vr.range.2 e.resolution
  else none

/-! ## Claim-side and auxiliary predicates -/

/-- The probe points at which at least one of the variable's membership
functions exceeds the `0.01` threshold. -/
def exceedPoints (sets : List (String × MF)) : List ℚ :=
  testPoints.filter fun x => sets.any fun p => decide (1 / 100 < p.2 x)

/-- Modelled from the spec (claim C2's words, for refinement comparison
with `inferRange`): the minimum and maximum of the probe points at which
some membership function exceeds `0.01`, and `[0,100]` when there is no
such point. -/
def specInferRange (sets : List (String × MF)) : ℚ × ℚ :=
  match exceedPoints sets with
  | [] => (0, 100)
  | x :: xs => (xs.foldl min x, xs.foldl max x)

/-- Whether `name` is registered as an input variable (the names whose
input entries `fuzzify` keeps). -/
def isInputName (e : Engine) (n : String) : Bool :=
  match findVar e n with
  | some v => !v.isOutput
  | none => false

/-- All registered membership functions of `e` return only non-negative
values (claim C10's hypothesis). -/
def engineMFsNonneg (e : Engine) : Prop :=
  ∀ v ∈ e.vars, ∀ p ∈ v.sets, ∀ x : ℚ, 0 ≤ p.2 x

/-- All registered membership functions of `e` take values in `[0,1]`
(the spec's membership-function contract, §4.1). -/
def engineMFsIn01 (e : Engine) : Prop :=
  ∀ v ∈ e.vars, ∀ p ∈ v.sets, ∀ x : ℚ, 0 ≤ p.2 x ∧ p.2 x ≤ 1

/-- Every explicitly weighted rule of `e` has a non-negative weight. -/
def weightsNonneg (e : Engine) : Prop :=
  ∀ r ∈ e.rules, ∀ w : ℚ, r.weight = some w → 0 ≤ w

/-- Every registered range is ordered (`min ≤ max`, the spec's variable
invariant). -/
def rangesOrdered (e : Engine) : Prop :=
  ∀ v ∈ e.vars, v.range.1 ≤ v.range.2

/-! ## Concrete instances used in counterexamples and witnesses -/

/-- The constant-one membership function. -/
def mfOne : MF := fun _ => 1

/-- A `[0,1]`-valued step function used as an output term shape. -/
def mfStep50 : MF := fun x => if x ≤ 50 then 1 else 0

/-- A small registry: input `t` with term `c`, output `f` with term `l`. -/
def engC45 : Engine :=
  addOutput (addVariable defaultEngine "t" [("c", mfOne)] (some (0, 100)))
    "f" [("l", mfStep50)] (some (0, 100))

/-- A rule that validates against `engC45`. -/
def ruleOk : Rule := ⟨[("t", .one "c")], [("f", "l")], none, none⟩

/-- A rule whose antecedent names the unregistered variable `u`. -/
def ruleBadVar : Rule := ⟨[("u", .one "c")], [("f", "l")], none, none⟩

/-- A rule whose first antecedent entry is valid for `engC45` and whose
second names the unregistered variable `u`. -/
def ruleValidThenBad : Rule :=
  ⟨[("t", .one "c"), ("u", .one "c")], [("f", "l")], none, none⟩

/-- A rule whose first antecedent entry has an unknown term for the
registered variable `t`, and whose second entry names the unregistered
variable `u`. -/
def ruleMixed : Rule :=
  ⟨[("t", .one "zzz"), ("u", .one "c")], [("f", "l")], none, none⟩

/-- The rule `ruleOk` with weight `0`. -/
def ruleW0 : Rule := ⟨[("t", .one "c")], [("f", "l")], some 0, none⟩

/-- The rule `ruleOk` with weight `1/2`. -/
def ruleHalf : Rule := ⟨[("t", .one "c")], [("f", "l")], some (1 / 2), none⟩

/-- The engine `engC45` carrying only the weight-`0` rule. -/
def engW0 : Engine := { engC45 with rules := [ruleW0] }

/-- The rule-evaluation record `evaluateRules` produces for `ruleW0` in
`engW0` on the input `t = 5`. -/
def reW0 : RuleEval := ⟨ruleW0, 0, [("f", "l", 0)]⟩

/-- Membership spike at `0` of height `9/10` (values in `[0,1]`). -/
def mfSpikeAt0 : MF := fun x => if x = 0 then 9 / 10 else 0

/-- Membership spike at `1` of height `1` (values in `[0,1]`). -/
def mfSpikeAt1 : MF := fun x => if x = 1 then 1 else 0

/-- An engine (product implication, sum aggregation, centroid, resolution
`1`) whose two rules carry weights `-1` and `1`: all its membership
functions are `[0,1]`-valued and its output range is `[0,1]`, yet
`evaluate` produces `10` for `y`. -/
def engC10 : Engine :=
  ⟨[⟨"t", [("on", mfOne)], (0, 100), false⟩,
    ⟨"y", [("t1", mfSpikeAt0), ("t2", mfSpikeAt1)], (0, 1), true⟩],
   [⟨[("t", .one "on")], [("y", "t1")], some (-1), none⟩,
    ⟨[("t", .one "on")], [("y", "t2")], some 1, none⟩],
   .centroid, .min, .max, .product, .sum, 1⟩

/-- The engine `engC45` with rules `[ruleOk, ruleHalf]` at resolution `2`. -/
def engPermA : Engine :=
  { engC45 with rules := [ruleOk, ruleHalf], resolution := 2 }

/-- The engine `engC45` with the same rules in the opposite order. -/
def engPermB : Engine :=
  { engC45 with rules := [ruleHalf, ruleOk], resolution := 2 }

/-- The engine `engC45` carrying `ruleOk` at resolution `4` (C10 witness engine). -/
def engWit : Engine := { engC45 with rules := [ruleOk], resolution := 4 }

/-! ## Shared lemmas: left folds of `min` / `max` -/

theorem foldl_min_le_seed (l : List ℚ) : ∀ a : ℚ, l.foldl min a ≤ a := by
  induction l with
  | nil => intro a; exact le_refl a
  | cons b t ih =>
    intro a
    exact (ih (min a b)).trans (min_le_left a b)

theorem foldl_min_eq_or_mem (l : List ℚ) :
    ∀ a : ℚ, l.foldl min a = a ∨ l.foldl min a ∈ l := by
  induction l with
  | nil => intro a; exact Or.inl rfl
  | cons b t ih =>
    intro a
    rcases ih (min a b) with h | h
    · rw [List.foldl_cons, h]
      rcases min_choice a b with h2 | h2
      · exact Or.inl h2
      · exact Or.inr (by rw [h2]; exact List.mem_cons_self b t)
    · exact Or.inr (List.mem_cons_of_mem b h)

theorem foldl_min_le_of_mem (l : List ℚ) :
    ∀ (a x : ℚ), x ∈ l → l.foldl min a ≤ x := by
  induction l with
  | nil => intro a x hx; cases hx
  | cons b t ih =>
    intro a x hx
    rcases List.mem_cons.mp hx with rfl | hx
    · exact (foldl_min_le_seed t (min a x)).trans (min_le_right a x)
    · exact ih (min a b) x hx

theorem foldl_min_eq_of_mem_iff {l1 l2 : List ℚ}
    (h : ∀ x : ℚ, x ∈ l1 ↔ x ∈ l2) (a : ℚ) :
    l1.foldl min a = l2.foldl min a := by
  apply le_antisymm
  · rcases foldl_min_eq_or_mem l2 a with h2 | h2
    · rw [h2]; exact foldl_min_le_seed l1 a
    · exact foldl_min_le_of_mem l1 a _ ((h _).mpr h2)
  · rcases foldl_min_eq_or_mem l1 a with h1 | h1
    · rw [h1]; exact foldl_min_le_seed l2 a
    · exact foldl_min_le_of_mem l2 a _ ((h _).mp h1)

theorem seed_le_foldl_max (l : List ℚ) : ∀ a : ℚ, a ≤ l.foldl max a := by
  induction l with
  | nil => intro a; exact le_refl a
  | cons b t ih =>
    intro a
    exact (le_max_left a b).trans (ih (max a b))

theorem foldl_max_eq_or_mem (l : List ℚ) :
    ∀ a : ℚ, l.foldl max a = a ∨ l.foldl max a ∈ l := by
  induction l with
  | nil => intro a; exact Or.inl rfl
  | cons b t ih =>
    intro a
    rcases ih (max a b) with h | h
    · rw [List.foldl_cons, h]
      rcases max_choice a b with h2 | h2
      · exact Or.inl h2
      · exact Or.inr (by rw [h2]; exact List.mem_cons_self b t)
    · exact Or.inr (List.mem_cons_of_mem b h)

theorem le_foldl_max_of_mem (l : List ℚ) :
    ∀ (a x : ℚ), x ∈ l → x ≤ l.foldl max a := by
  induction l with
  | nil => intro a x hx; cases hx
  | cons b t ih =>
    intro a x hx
    rcases List.mem_cons.mp hx with rfl | hx
    · exact (le_max_right a x).trans (seed_le_foldl_max t (max a x))
    · exact ih (max a b) x hx

theorem foldl_max_eq_of_mem_iff {l1 l2 : List ℚ}
    (h : ∀ x : ℚ, x ∈ l1 ↔ x ∈ l2) (a : ℚ) :
    l1.foldl max a = l2.foldl max a := by
  apply le_antisymm
  · rcases foldl_max_eq_or_mem l1 a with h1 | h1
    · rw [h1]; exact seed_le_foldl_max l2 a
    · exact le_foldl_max_of_mem l2 a _ ((h _).mp h1)
  · rcases foldl_max_eq_or_mem l2 a with h2 | h2
    · rw [h2]; exact seed_le_foldl_max l1 a
    · exact le_foldl_max_of_mem l1 a _ ((h _).mpr h2)

/-- Embeds `jsMaxList` of a non-empty list is one of its elements. -/
theorem jsMaxList_mem {l : List ℚ} (h : l ≠ []) : jsMaxList l ∈ l := by
  cases l with
  | nil => exact absurd rfl h
  | cons a t =>
    rcases foldl_max_eq_or_mem t a with h1 | h1
    · rw [jsMaxList, h1]; exact List.mem_cons_self a t
    · exact List.mem_cons_of_mem a h1

/-- Every element of a list is at most its `jsMaxList`. -/
theorem le_jsMaxList {l : List ℚ} {x : ℚ} (hx : x ∈ l) : x ≤ jsMaxList l := by
  cases l with
  | nil => cases hx
  | cons a t =>
    rcases List.mem_cons.mp hx with rfl | hx
    · exact seed_le_foldl_max t x
    · exact le_foldl_max_of_mem t a x hx

/-- Embeds `jsMaxList` only depends on the multiset of elements. -/
theorem jsMaxList_perm {l1 l2 : List ℚ} (h : l1.Perm l2) (hne : l1 ≠ []) :
    jsMaxList l1 = jsMaxList l2 := by
  have hne2 : l2 ≠ [] := by
    intro heq
    exact hne (List.Perm.eq_nil (heq ▸ h))
  apply le_antisymm
  · exact le_jsMaxList (h.mem_iff.mp (jsMaxList_mem hne))
  · exact le_jsMaxList (h.mem_iff.mpr (jsMaxList_mem hne2))

/-! ## Shared lemmas: the sampling loops -/

/-- With a non-positive step, the upward sampling loop never terminates:
the fuel model returns `none` at every fuel. -/
theorem ptsAux_stuck {st : ℚ} (hst : st ≤ 0) :
    ∀ (fuel : ℕ) (x mx : ℚ), x ≤ mx → ptsAux fuel x mx st = none := by
  intro fuel
  induction fuel with
  | zero => intro x mx _; rfl
  | succ f ih =>
    intro x mx hx
    simp only [ptsAux, if_pos hx, ih (x + st) mx (by linarith)]
    rfl

/-- With a non-positive step, the downward sampling loop never terminates. -/
theorem ptsDownAux_stuck {st : ℚ} (hst : st ≤ 0) :
    ∀ (fuel : ℕ) (x mn : ℚ), mn ≤ x → ptsDownAux fuel x mn st = none := by
  intro fuel
  induction fuel with
  | zero => intro x mn _; rfl
  | succ f ih =>
    intro x mn hx
    simp only [ptsDownAux, if_pos hx, ih (x - st) mn (by linarith)]
    rfl

/-- Closed form of the upward sampling loop for a positive step. -/
theorem ptsAux_closed {st : ℚ} (hst : 0 < st) :
    ∀ (n : ℕ) (x mx : ℚ) (fuel : ℕ), x + n * st ≤ mx → mx < x + (n + 1) * st →
      n + 2 ≤ fuel →
      ptsAux fuel x mx st = some ((List.range (n + 1)).map fun i : ℕ => x + i * st) := by
  intro n
  induction n with
  | zero =>
    intro x mx fuel h1 h2 hf
    obtain ⟨k, rfl⟩ : ∃ k, fuel = k + 2 := ⟨fuel - 2, by omega⟩
    have hx : x ≤ mx := by push_cast at h1; linarith
    have hx2 : ¬ x + st ≤ mx := by push_cast at h2; push_neg; linarith
    simp only [ptsAux, if_pos hx, if_neg hx2]
    norm_num [List.range_succ]
  | succ n ih =>
    intro x mx fuel h1 h2 hf
    obtain ⟨k, rfl, hk⟩ : ∃ k, fuel = k + 1 ∧ n + 2 ≤ k := ⟨fuel - 1, by omega, by omega⟩
    have hstep : (0 : ℚ) ≤ (n + 1 : ℕ) * st := by positivity
    have hx : x ≤ mx := by push_cast at h1 hstep; nlinarith
    have hrec := ih (x + st) mx k (by push_cast at h1 ⊢; linarith)
      (by push_cast at h2 ⊢; linarith) hk
    simp only [ptsAux, if_pos hx, hrec, Option.map_some']
    congr 1
    conv_rhs => rw [List.range_succ_eq_map]
    simp only [List.map_cons, List.map_map]
    congr 1
    · norm_num
    · apply List.map_congr_left
      intro i _
      simp only [Function.comp_apply]
      push_cast
      ring

/-- Closed form of the downward sampling loop for a positive step. -/
theorem ptsDownAux_closed {st : ℚ} (hst : 0 < st) :
    ∀ (n : ℕ) (x mn : ℚ) (fuel : ℕ), mn ≤ x - n * st → x - (n + 1) * st < mn →
      n + 2 ≤ fuel →
      ptsDownAux fuel x mn st = some ((List.range (n + 1)).map fun i : ℕ => x - i * st) := by
  intro n
  induction n with
  | zero =>
    intro x mn fuel h1 h2 hf
    obtain ⟨k, rfl⟩ : ∃ k, fuel = k + 2 := ⟨fuel - 2, by omega⟩
    have hx : mn ≤ x := by push_cast at h1; linarith
    have hx2 : ¬ mn ≤ x - st := by push_cast at h2; push_neg; linarith
    simp only [ptsDownAux, if_pos hx, if_neg hx2]
    norm_num [List.range_succ]
  | succ n ih =>
    intro x mn fuel h1 h2 hf
    obtain ⟨k, rfl, hk⟩ : ∃ k, fuel = k + 1 ∧ n + 2 ≤ k := ⟨fuel - 1, by omega, by omega⟩
    have hstep : (0 : ℚ) ≤ (n + 1 : ℕ) * st := by positivity
    have hx : mn ≤ x := by push_cast at h1 hstep; nlinarith
    have hrec := ih (x - st) mn k (by push_cast at h1 ⊢; linarith)
      (by push_cast at h2 ⊢; linarith) hk
    simp only [ptsDownAux, if_pos hx, hrec, Option.map_some']
    congr 1
    conv_rhs => rw [List.range_succ_eq_map]
    simp only [List.map_cons, List.map_map]
    congr 1
    · norm_num
    · apply List.map_congr_left
      intro i _
      simp only [Function.comp_apply]
      push_cast
      ring

/-- Bounds on the points visited by the upward loop (non-negative step). -/
theorem ptsAux_mem_bounds {st : ℚ} (hst : 0 ≤ st) :
    ∀ (fuel : ℕ) (x mx : ℚ) (l : List ℚ), ptsAux fuel x mx st = some l →
      ∀ y ∈ l, x ≤ y ∧ y ≤ mx := by
  intro fuel
  induction fuel with
  | zero => intro x mx l h; cases h
  | succ f ih =>
    intro x mx l h y hy
    by_cases hx : x ≤ mx
    · simp only [ptsAux, if_pos hx] at h
      cases hrec : ptsAux f (x + st) mx st with
      | none => rw [hrec] at h; cases h
      | some l2 =>
        rw [hrec] at h
        simp only [Option.map_some', Option.some.injEq] at h
        subst h
        rcases List.mem_cons.mp hy with rfl | hy
        · exact ⟨le_refl y, hx⟩
        · have := ih (x + st) mx l2 hrec y hy
          exact ⟨by linarith [this.1], this.2⟩
    · simp only [ptsAux, if_neg hx] at h
      simp only [Option.some.injEq] at h
      subst h
      cases hy

/-- Bounds on the points visited by the downward loop (non-negative step). -/
theorem ptsDownAux_mem_bounds {st : ℚ} (hst : 0 ≤ st) :
    ∀ (fuel : ℕ) (x mn : ℚ) (l : List ℚ), ptsDownAux fuel x mn st = some l →
      ∀ y ∈ l, mn ≤ y ∧ y ≤ x := by
  intro fuel
  induction fuel with
  | zero => intro x mn l h; cases h
  | succ f ih =>
    intro x mn l h y hy
    by_cases hx : mn ≤ x
    · simp only [ptsDownAux, if_pos hx] at h
      cases hrec : ptsDownAux f (x - st) mn st with
      | none => rw [hrec] at h; cases h
      | some l2 =>
        rw [hrec] at h
        simp only [Option.map_some', Option.some.injEq] at h
        subst h
        rcases List.mem_cons.mp hy with rfl | hy
        · exact ⟨hx, le_refl y⟩
        · have := ih (x - st) mn l2 hrec y hy
          exact ⟨this.1, by linarith [this.2]⟩
    · simp only [ptsDownAux, if_neg hx] at h
      simp only [Option.some.injEq] at h
      subst h
      cases hy

/-- The sample points of an integer resolution `n > 0` over `mn < mx`. -/
theorem samplePts_nat (mn mx : ℚ) (n : ℕ) (hlt : mn < mx) (hn : 0 < n) :
    samplePts mn mx (n : ℚ)
      = some ((List.range (n + 1)).map fun i : ℕ => mn + i * ((mx - mn) / (n : ℚ))) := by
  have hn0 : (0 : ℚ) < (n : ℚ) := by exact_mod_cast hn
  have hst : 0 < (mx - mn) / (n : ℚ) := div_pos (by linarith) hn0
  have hmul : (n : ℚ) * ((mx - mn) / (n : ℚ)) = mx - mn := by
    field_simp
  unfold samplePts
  rw [ptsAux_closed hst n mn mx (sampleFuel (n : ℚ))
    (by rw [hmul]; linarith)
    (by rw [add_mul, hmul]; linarith)
    (by simp [sampleFuel, Rat.num_natCast])]

/-- The downward sample points of an integer resolution `n > 0` over
`mn < mx`. -/
theorem samplePtsDown_nat (mn mx : ℚ) (n : ℕ) (hlt : mn < mx) (hn : 0 < n) :
    samplePtsDown mn mx (n : ℚ)
      = some ((List.range (n + 1)).map fun i : ℕ => mx - i * ((mx - mn) / (n : ℚ))) := by
  have hn0 : (0 : ℚ) < (n : ℚ) := by exact_mod_cast hn
  have hst : 0 < (mx - mn) / (n : ℚ) := div_pos (by linarith) hn0
  have hmul : (n : ℚ) * ((mx - mn) / (n : ℚ)) = mx - mn := by
    field_simp
  unfold samplePtsDown
  rw [ptsDownAux_closed hst n mx mn (sampleFuel (n : ℚ))
    (by rw [hmul]; linarith)
    (by rw [add_mul, hmul]; linarith)
    (by simp [sampleFuel, Rat.num_natCast])]

/-- Sum of the arithmetic progression `a, a+d, …, a+(m-1)d`. -/
theorem sum_map_arith (a d : ℚ) :
    ∀ m : ℕ, ((List.range m).map fun i : ℕ => a + i * d).sum
      = m * a + (m * (m - 1)) / 2 * d := by
  intro m
  induction m with
  | zero => simp
  | succ m ih =>
    rw [List.range_succ, List.map_append, List.sum_append, ih]
    push_cast
    simp only [List.map_cons, List.map_nil, List.sum_cons, List.sum_nil]
    ring

/-! ## Claim C6 -/

/-- Claim C6 (confirmed): a rule with weight `0` has firing strength `0`
after weighting, every contribution it records carries strength `0`, and —
for both `min` (given a non-negative base value) and `product` implication —
the implied membership function it contributes is constant zero. -/
theorem claim6_weight_zero_zero_contribution (e : Engine) (fz : List FuzzRec)
    (re : RuleEval) (hre : re ∈ evaluateRules e fz)
    (hw : re.rule.weight = some 0) :
    re.firingStrength = 0 ∧ (∀ c ∈ re.outputContributions, c.2.2 = 0) ∧
    ∀ (mf : MF) (x : ℚ), 0 ≤ mf x →
      applyImplication e.implicationMethod mf re.firingStrength x = 0 := by
  unfold evaluateRules at hre
  rcases List.mem_map.mp hre with ⟨r, hrmem, heq⟩
  subst heq
  simp only at hw
  have hs : ruleFiring e fz r = 0 := by
    unfold ruleFiring
    rw [hw]
    exact mul_zero _
  refine ⟨hs, ?_, ?_⟩
  · intro c hc
    simp only [List.mem_map] at hc
    rcases hc with ⟨d, _, rfl⟩
    exact hs
  · intro mf x hmf
    simp only [hs]
    cases e.implicationMethod with
    | min => exact min_eq_right hmf
    | product => exact mul_zero _

/-- Witness for C6 at the concrete engine `engW0`. -/
theorem claim6_witness :
    reW0.firingStrength = 0 ∧
      applyImplication engW0.implicationMethod mfOne reW0.firingStrength 0 = 0 := by
  have h := claim6_weight_zero_zero_contribution engW0
    (fuzzify engW0 [("t", 5)]) reW0 (by with_unfolding_all decide) rfl
  exact ⟨h.1, h.2.2 mfOne 0 (by norm_num [mfOne])⟩

/-! ## Claim C8 -/

/-- Claim C8 (confirmed): `fuzzify` produces exactly one record — in order —
per input entry whose name is a registered input variable (unmatched names
and output-variable names are dropped without error), and `evaluateRules`
produces exactly one record per registered rule, in registration order. -/
theorem claim8_record_counts (e : Engine) (ins : List (String × ℚ)) :
    (fuzzify e ins).map FuzzRec.varName
      = (ins.filter fun p => isInputName e p.1).map Prod.fst ∧
    (evaluateRules e (fuzzify e ins)).map RuleEval.rule = e.rules := by
  constructor
  · induction ins with
    | nil => rfl
    | cons p t ih =>
      simp only [fuzzify, List.filterMap_cons, List.filter_cons] at ih ⊢
      cases hfv : findVar e p.1 with
      | none => simpa [isInputName, hfv] using ih
      | some v =>
        cases hvo : v.isOutput with
        | true => simpa [isInputName, hfv, hvo] using ih
        | false => simpa [isInputName, hfv, hvo] using ih
  · rw [evaluateRules, List.map_map]
    exact List.map_id e.rules

/-! ## Claim C1 -/

theorem sum_map_zero (l : List ℚ) : (l.map fun _ => (0 : ℚ)).sum = 0 := by
  induction l with
  | nil => rfl
  | cons b t ih => simp [ih]

/-- The `meanOfMaximum` scan over the constant-zero function keeps the
maximum at `0` and collects every visited point. -/
theorem momFold_zero :
    ∀ l acc : List ℚ,
      l.foldl (momStep fun _ => 0) (0, acc) = (0, acc ++ l) := by
  intro l
  induction l with
  | nil => intro acc; simp
  | cons b t ih =>
    intro acc
    have hstep : momStep (fun _ => 0) (0, acc) b = (0, acc ++ [b]) := by
      norm_num [momStep]
    rw [List.foldl_cons, hstep, ih]
    simp

/-- The `som`/`lom` scan over the constant-zero function never updates its
state. -/
theorem maxScanFold_zero (l : List ℚ) (s : ℚ) :
    l.foldl (maxScanStep fun _ => 0) (0, s) = (0, s) := by
  induction l with
  | nil => rfl
  | cons b t ih =>
    have hstep : maxScanStep (fun _ => 0) (0, s) b = (0, s) := by
      norm_num [maxScanStep]
    rw [List.foldl_cons, hstep]
    exact ih

/-- Claim C1 (amended): an output variable with no contributing rule fire
gets the constant-zero aggregated function, and — for `min < max` and a
positive integer resolution — defuzzifying it returns the exact midpoint
under `centroid`, `bisector` and `mom`, while `som` returns `min` and `lom`
returns `max` (those two scans have no zero-membership fallback). -/
theorem claim1_zero_mf_defuzzified (mn mx : ℚ) (n : ℕ) (hlt : mn < mx)
    (hn : 0 < n) :
    aggregateMFs AggMethod.max ([] : List MF) = (fun _ => (0 : ℚ)) ∧
    centroidO (fun _ => 0) mn mx (n : ℚ) = some ((mn + mx) / 2) ∧
    bisectorO (fun _ => 0) mn mx (n : ℚ) = some ((mn + mx) / 2) ∧
    momO (fun _ => 0) mn mx (n : ℚ) = some ((mn + mx) / 2) ∧
    somO (fun _ => 0) mn mx (n : ℚ) = some mn ∧
    lomO (fun _ => 0) mn mx (n : ℚ) = some mx := by
  have hn0 : (0 : ℚ) < (n : ℚ) := by exact_mod_cast hn
  have hpts := samplePts_nat mn mx n hlt hn
  have hptsd := samplePtsDown_nat mn mx n hlt hn
  refine ⟨rfl, ?_, ?_, ?_, ?_, ?_⟩
  · rw [centroidO, hpts]
    simp only [Option.map_some', Option.some.injEq]
    rw [show ((List.range (n + 1)).map fun i : ℕ =>
        mn + i * ((mx - mn) / (n : ℚ))).map (fun _ => (0 : ℚ))
      = (List.range (n + 1)).map (fun _ => (0 : ℚ)) from List.map_map ..]
    simp [sum_map_zero, List.map_map, Function.comp]
  · rw [bisectorO, hpts]
    simp only [Option.map_some', Option.some.injEq, zero_mul]
    rw [sum_map_zero]
    simp
  · rw [momO, hpts]
    simp only [Option.map_some', Option.some.injEq, momFold_zero, List.nil_append]
    have hne : ((List.range (n + 1)).map fun i : ℕ =>
        mn + i * ((mx - mn) / (n : ℚ))) ≠ [] := by
      simp only [ne_eq, List.map_eq_nil_iff, List.range_eq_nil]
      omega
    rw [if_neg hne]
    rw [sum_map_arith mn ((mx - mn) / (n : ℚ)) (n + 1)]
    simp only [List.length_map, List.length_range]
    push_cast
    rw [div_eq_iff (by positivity : ((n : ℚ) + 1) ≠ 0)]
    field_simp
    ring
  · rw [somO, hpts]
    simp only [Option.map_some', maxScanFold_zero]
  · rw [lomO, hptsd]
    simp only [Option.map_some', maxScanFold_zero]

/-- Witness for C1 at `[0,10]`, resolution `5`. -/
theorem claim1_witness :
    aggregateMFs AggMethod.max ([] : List MF) = (fun _ => (0 : ℚ)) ∧
    centroidO (fun _ => 0) 0 10 ((5 : ℕ) : ℚ) = some ((0 + 10) / 2) ∧
    bisectorO (fun _ => 0) 0 10 ((5 : ℕ) : ℚ) = some ((0 + 10) / 2) ∧
    momO (fun _ => 0) 0 10 ((5 : ℕ) : ℚ) = some ((0 + 10) / 2) ∧
    somO (fun _ => 0) 0 10 ((5 : ℕ) : ℚ) = some 0 ∧
    lomO (fun _ => 0) 0 10 ((5 : ℕ) : ℚ) = some 10 :=
  claim1_zero_mf_defuzzified 0 10 5 (by norm_num) (by norm_num)

/-! ## Claim C9 -/

/-- Claim C9 (amended): the sampling-based reflexivity
`isSubset(A,A) = isEqual(A,A) = true` holds for every membership function
`A` whenever the loop terminates: for `min < max` with a positive integer
resolution, and vacuously for `max < min` (no sample point).  When
`min = max` the step is `0` and the call never returns
(see `claim9_counterexample` and `ptsAux_stuck`). -/
theorem claim9_reflexivity (A : MF) (mn mx : ℚ) (n : ℕ)
    (h : (mn < mx ∧ 0 < n) ∨ mx < mn) :
    isSubsetO A A (mn, mx) (n : ℚ) = some true ∧
    isEqualO A A (mn, mx) (n : ℚ) = some true := by
  rcases h with ⟨hlt, hn⟩ | hgt
  · have hpts := samplePts_nat mn mx n hlt hn
    constructor
    · rw [isSubsetO]
      simp only [hpts, Option.map_some', Option.some.injEq]
      rw [List.all_eq_true]
      intro x _
      simp only [decide_eq_true_eq]
      have h10 : (0 : ℚ) < 1 / 10 ^ 10 := by norm_num
      linarith
    · rw [isEqualO]
      simp only [hpts, Option.map_some', Option.some.injEq]
      rw [List.all_eq_true]
      intro x _
      simp only [decide_eq_true_eq, sub_self, abs_zero]
      norm_num
  · have hempty : samplePts mn mx (n : ℚ) = some [] := by
      rw [samplePts,
        show sampleFuel (n : ℚ) = ((n : ℚ).num.toNat + 1) + 1 from rfl]
      simp only [ptsAux, if_neg (not_le.mpr hgt)]
    constructor
    · rw [isSubsetO]
      simp [hempty]
    · rw [isEqualO]
      simp [hempty]

/-- Witness for C9 at `A = mfOne`, range `[0,10]`, resolution `2`. -/
theorem claim9_witness :
    isSubsetO mfOne mfOne (0, 10) ((2 : ℕ) : ℚ) = some true ∧
    isEqualO mfOne mfOne (0, 10) ((2 : ℕ) : ℚ) = some true :=
  claim9_reflexivity mfOne 0 10 2 (Or.inl ⟨by norm_num, by norm_num⟩)

/-! ## Claim C3 -/

/-- On `[a, b]` (with `a < b < c`) the triangular function is the rising
ramp `(x-a)/(b-a)`. -/
theorem triangularF_left (a b c : ℚ) (h1 : a < b) (h2 : b < c)
    (t : ℚ) (ht1 : a ≤ t) (ht2 : t ≤ b) :
    triangularF a b c t = (t - a) / (b - a) := by
  rcases eq_or_lt_of_le ht1 with rfl | hat
  · rw [triangularF, if_pos (Or.inl (le_refl a))]
    simp
  · have hnc : ¬ c ≤ t := by linarith
    rw [triangularF, if_neg (by push_neg; exact ⟨by linarith, by linarith⟩)]
    rcases eq_or_lt_of_le ht2 with rfl | htb
    · rw [if_pos rfl, div_self (ne_of_gt (by linarith : (0 : ℚ) < t - a))]
    · rw [if_neg (by linarith), if_pos htb]

/-- On `[b, c]` (with `a < b < c`) the triangular function is the falling
ramp `(c-x)/(c-b)`. -/
theorem triangularF_right (a b c : ℚ) (h1 : a < b) (h2 : b < c)
    (t : ℚ) (ht1 : b ≤ t) (ht2 : t ≤ c) :
    triangularF a b c t = (c - t) / (c - b) := by
  rcases eq_or_lt_of_le ht2 with rfl | htc
  · rw [triangularF, if_pos (Or.inr (le_refl t))]
    simp
  · rw [triangularF, if_neg (by push_neg; exact ⟨by linarith, by linarith⟩)]
    rcases eq_or_lt_of_le ht1 with rfl | hbt
    · rw [if_pos rfl, div_self (ne_of_gt (by linarith : (0 : ℚ) < c - b))]
    · rw [if_neg (by linarith), if_neg (by linarith)]

/-- Claim C3 (amended): for strictly ordered control points `a < b < c`,
`triangular(a,b,c)` vanishes at the feet, peaks at `1`, and is
non-decreasing on `[a,b]` and non-increasing on `[b,c]`.  (For the
degenerate accepted triples with `a = b` or `b = c` the peak value is `0`,
not `1`: `claim3_counterexample`.) -/
theorem claim3_triangular_shape (a b c : ℚ) (h1 : a < b) (h2 : b < c) :
    triangularF a b c a = 0 ∧ triangularF a b c c = 0 ∧
    triangularF a b c b = 1 ∧
    (∀ x y, a ≤ x → x ≤ y → y ≤ b → triangularF a b c x ≤ triangularF a b c y) ∧
    (∀ x y, b ≤ x → x ≤ y → y ≤ c → triangularF a b c y ≤ triangularF a b c x) := by
  have hba : (0 : ℚ) < b - a := by linarith
  have hcb : (0 : ℚ) < c - b := by linarith
  refine ⟨?_, ?_, ?_, ?_, ?_⟩
  · rw [triangularF, if_pos (Or.inl (le_refl a))]
  · rw [triangularF, if_pos (Or.inr (le_refl c))]
  · rw [triangularF_left a b c h1 h2 b (le_of_lt h1) (le_refl b),
      div_self (by linarith)]
  · intro x y hax hxy hyb
    rw [triangularF_left a b c h1 h2 x hax (hxy.trans hyb),
      triangularF_left a b c h1 h2 y (hax.trans hxy) hyb]
    exact (div_le_div_iff_of_pos_right hba).mpr (by linarith)
  · intro x y hbx hxy hyc
    rw [triangularF_right a b c h1 h2 x hbx (hxy.trans hyc),
      triangularF_right a b c h1 h2 y (hbx.trans hxy) hyc]
    exact (div_le_div_iff_of_pos_right hcb).mpr (by linarith)

/-- Witness for C3 at `(0, 1, 2)`. -/
theorem claim3_witness : triangularF 0 1 2 1 = 1 :=
  (claim3_triangular_shape 0 1 2 (by norm_num) (by norm_num)).2.2.1

/-! ## Claim C4 -/

/-- Claim C4 (amended): when some rule of the list fails validation,
`addRules` throws at the first such rule; the valid rules before it remain
registered (so `getRules` afterwards returns the prior rules followed by
that prefix — not the unchanged prior list) and no rule from the failing
one onward is added.  The registry is untouched. -/
theorem claim4_addRules_partial :
    ∀ (rs : List Rule) (e e1 : Engine) (err : RuleError),
      addRulesRun e rs = (e1, some err) →
      ∃ pre bad post, rs = pre ++ bad :: post ∧
        e1.rules = e.rules ++ pre ∧ e1.vars = e.vars ∧
        validateRule e1 bad = .error err := by
  intro rs
  induction rs with
  | nil =>
    intro e e1 err h
    simp only [addRulesRun, Prod.mk.injEq] at h
    exact absurd h.2 (by simp)
  | cons r rest ih =>
    intro e e1 err h
    rw [addRulesRun] at h
    cases hval : validateRule e r with
    | error err2 =>
      have haddr : addRule e r = .error err2 := by rw [addRule, hval]
      rw [haddr] at h
      simp only [Prod.mk.injEq, Option.some.injEq] at h
      refine ⟨[], r, rest, rfl, ?_, ?_, ?_⟩
      · rw [← h.1]; simp
      · rw [← h.1]
      · rw [← h.1, hval, h.2]
    | ok u =>
      have haddr : addRule e r = .ok { e with rules := e.rules ++ [r] } := by
        rw [addRule, hval]
      rw [haddr] at h
      rcases ih _ _ _ h with ⟨pre, bad, post, hsplit, hrules, hvars, hbad⟩
      refine ⟨r :: pre, bad, post, by rw [hsplit]; rfl, ?_, hvars, hbad⟩
      rw [hrules]
      show (e.rules ++ [r]) ++ pre = e.rules ++ r :: pre
      simp

/-- Witness for C4: `engC45` after the failing `addRules` call holds
exactly `[ruleOk]`. -/
theorem claim4_witness :
    ∃ pre bad post, ([ruleOk, ruleBadVar] : List Rule) = pre ++ bad :: post ∧
      ({ engC45 with rules := [ruleOk] } : Engine).rules = engC45.rules ++ pre ∧
      ({ engC45 with rules := [ruleOk] } : Engine).vars = engC45.vars ∧
      validateRule { engC45 with rules := [ruleOk] } bad
        = .error (.unknownAnteVar "u") :=
  claim4_addRules_partial [ruleOk, ruleBadVar] engC45
    { engC45 with rules := [ruleOk] } (.unknownAnteVar "u") rfl

/-! ## Claim C5 -/

/-- The antecedent check fails on any entry whose variable is missing from
the registry. -/
theorem checkAnte_err_of_unknown (e : Engine) :
    ∀ (l : List (String × AnteTerms)) (v : String) (ts : AnteTerms),
      (v, ts) ∈ l → findVar e v = none →
      ∃ err, checkAnte e l = .error err := by
  intro l
  induction l with
  | nil => intro v ts hmem; cases hmem
  | cons p rest ih =>
    intro v ts hmem hfv
    obtain ⟨pv, pts⟩ := p
    rcases List.mem_cons.mp hmem with heq | hmem
    · obtain ⟨rfl, rfl⟩ := Prod.mk.injEq .. ▸ heq
      exact ⟨.unknownAnteVar v, by simp only [checkAnte, hfv]⟩
    · cases hfw : findVar e pv with
      | none => exact ⟨.unknownAnteVar pv, by simp only [checkAnte, hfw]⟩
      | some vr =>
        cases hterm : (match pts with | .one t => [t] | .many l => l).find?
            (fun t => (lookupMF vr.sets t).isNone) with
        | some t =>
          exact ⟨.unknownAnteTerm pv t, by simp only [checkAnte, hfw, hterm]⟩
        | none =>
          rcases ih v ts hmem hfv with ⟨err, herr⟩
          exact ⟨err, by simp only [checkAnte, hfw, hterm, herr]⟩

/-- When every antecedent entry before the unknown-variable entry
validates, `checkAnte` reaches that entry and throws its UnknownVariable
error. -/
theorem checkAnte_unknownVar_first (e : Engine) :
    ∀ (pre : List (String × AnteTerms)) (v : String) (ts : AnteTerms)
      (post : List (String × AnteTerms)),
      (∀ p ∈ pre, anteEntryOk e p = true) → findVar e v = none →
      checkAnte e (pre ++ (v, ts) :: post) = .error (.unknownAnteVar v) := by
  intro pre
  induction pre with
  | nil =>
    intro v ts post _ hfv
    simp only [List.nil_append, checkAnte, hfv]
  | cons p rest ih =>
    intro v ts post hok hfv
    obtain ⟨pv, pts⟩ := p
    have hpok := hok (pv, pts) (List.mem_cons_self _ _)
    rw [anteEntryOk] at hpok
    cases hfw : findVar e pv with
    | none =>
      rw [hfw] at hpok
      simp at hpok
    | some vr =>
      rw [hfw] at hpok
      dsimp only at hpok
      have hterm : (match pts with
          | AnteTerms.one t => [t] | AnteTerms.many l => l).find?
            (fun t => (lookupMF vr.sets t).isNone) = none :=
        Option.isNone_iff_eq_none.mp hpok
      rw [List.cons_append]
      simp only [checkAnte, hfw, hterm]
      exact ih v ts post (fun q hq => hok q (List.mem_cons_of_mem _ hq)) hfv

/-- Claim C5 (amended): a rule whose antecedent names an unregistered
variable always fails `addRule` (so it is never pushed onto the rule list —
the throw happens before the mutation); the thrown error is the
UnknownVariable error whenever that entry is the first invalid reference —
that is, every antecedent entry before it names a registered variable with
only known terms — while an earlier invalid entry throws its own error
instead (`claim5_counterexample`). -/
theorem claim5_unknown_antecedent_rejected (e : Engine) (r : Rule)
    (v : String) (ts : AnteTerms) :
    ((v, ts) ∈ r.ifs → findVar e v = none →
      ∃ err, addRule e r = .error err) ∧
    (∀ pre post, r.ifs = pre ++ (v, ts) :: post →
      (∀ p ∈ pre, anteEntryOk e p = true) → findVar e v = none →
      addRule e r = .error (.unknownAnteVar v)) := by
  constructor
  · intro hmem hfv
    rcases checkAnte_err_of_unknown e r.ifs v ts hmem hfv with ⟨err, herr⟩
    exact ⟨err, by rw [addRule, validateRule, herr]⟩
  · intro pre post hsplit hok hfv
    rw [addRule, validateRule, hsplit,
      checkAnte_unknownVar_first e pre v ts post hok hfv]

/-- Witness for C5: `ruleValidThenBad`, whose first antecedent entry is
valid for `engC45` and whose second names the unregistered `u`, is rejected
with the UnknownVariable error. -/
theorem claim5_witness :
    addRule engC45 ruleValidThenBad = .error (.unknownAnteVar "u") :=
  (claim5_unknown_antecedent_rejected engC45 ruleValidThenBad "u"
    (.one "c")).2 [("t", .one "c")] [] rfl (by decide) rfl

/-! ## Claim C2 -/

/-- If the key is already present, `Map.set` replaces it in place and a
lookup finds the replacement. -/
theorem find?_map_replace (v : Variable) :
    ∀ vars : List Variable, vars.any (fun w => w.name == v.name) = true →
      List.find? (fun w => w.name == v.name)
        (vars.map fun w => if w.name == v.name then v else w) = some v := by
  intro vars
  induction vars with
  | nil => intro h; simp at h
  | cons w rest ih =>
    intro hany
    rw [List.map_cons]
    by_cases hw : (w.name == v.name) = true
    · rw [if_pos hw]
      exact List.find?_cons_of_pos _ (by simp)
    · rw [if_neg hw]
      rw [List.find?_cons_of_neg _ (by simp [hw])]
      apply ih
      rw [List.any_cons] at hany
      simpa [hw] using hany

/-- If the key is absent, `Map.set` appends and a lookup finds the new
entry. -/
theorem find?_append_self (v : Variable) :
    ∀ vars : List Variable, vars.any (fun w => w.name == v.name) = false →
      List.find? (fun w => w.name == v.name) (vars ++ [v]) = some v := by
  intro vars
  induction vars with
  | nil => intro _; exact List.find?_cons_of_pos _ (by simp)
  | cons w rest ih =>
    intro hany
    rw [List.any_cons, Bool.or_eq_false_iff] at hany
    rw [List.cons_append, List.find?_cons_of_neg _ (by simp [hany.1])]
    exact ih hany.2

/-- Looking a variable up right after `variables.set` yields the stored
record. -/
theorem findVar_setVar (vars : List Variable) (v : Variable) :
    List.find? (fun w => w.name == v.name) (setVar vars v) = some v := by
  rw [setVar]
  by_cases hany : vars.any (fun w => w.name == v.name) = true
  · rw [if_pos hany]
    exact find?_map_replace v vars hany
  · rw [if_neg hany]
    exact find?_append_self v vars (by simpa using hany)

/-- The inner probe loop of `inferRange` for one membership function,
split into its `min` and `max` components. -/
theorem inferRange_inner (mf : MF) :
    ∀ (pts : List ℚ) (acc : ℚ × ℚ),
      pts.foldl
          (fun a x => if 1 / 100 < mf x then (min a.1 x, max a.2 x) else a) acc
        = ((pts.filter fun x => decide (1 / 100 < mf x)).foldl min acc.1,
           (pts.filter fun x => decide (1 / 100 < mf x)).foldl max acc.2) := by
  intro pts
  induction pts with
  | nil => intro acc; rfl
  | cons x rest ih =>
    intro acc
    rw [List.foldl_cons, List.filter_cons]
    by_cases hx : 1 / 100 < mf x
    · rw [if_pos hx, if_pos (by simp only [decide_eq_true_eq]; exact hx)]
      exact ih (min acc.1 x, max acc.2 x)
    · rw [if_neg hx, if_neg (by simp only [decide_eq_true_eq]; exact hx)]
      exact ih acc

/-- The full `inferRange` fold, as `min`/`max` folds over the flattened
list of exceeding probe points. -/
theorem inferRange_fold (sets : List (String × MF)) :
    ∀ acc : ℚ × ℚ,
      sets.foldl
          (fun acc p =>
            testPoints.foldl
              (fun a x => if 1 / 100 < p.2 x then (min a.1 x, max a.2 x) else a)
              acc) acc
        = ((sets.flatMap fun p =>
              testPoints.filter fun x => decide (1 / 100 < p.2 x)).foldl min acc.1,
           (sets.flatMap fun p =>
              testPoints.filter fun x => decide (1 / 100 < p.2 x)).foldl max acc.2) := by
  induction sets with
  | nil => intro acc; rfl
  | cons p rest ih =>
    intro acc
    rw [List.foldl_cons, inferRange_inner p.2 testPoints acc, ih,
      List.flatMap_cons, List.foldl_append, List.foldl_append]

/-- The flattened exceeding probe points and `exceedPoints` hold the same
elements. -/
theorem mem_flatMap_exceed (sets : List (String × MF)) (x : ℚ) :
    (x ∈ sets.flatMap fun p =>
        testPoints.filter fun y => decide (1 / 100 < p.2 y))
      ↔ x ∈ exceedPoints sets := by
  simp only [exceedPoints, List.mem_flatMap, List.mem_filter,
    List.any_eq_true, decide_eq_true_eq]
  tauto

/-- Claim C2 (amended): a variable registered without an explicit range
stores exactly `inferRange sets`, and that range is the `min`/`max` of the
exceeding probe points *seeded at `0` and `100`* — i.e.
`(min(0, m), max(100, M))`, not the bare probe extrema `(m, M)` predicted
by the claim (`claim2_counterexample`); it is `[0,100]` whenever no probe
point exceeds the threshold, but also in many other cases. -/
theorem claim2_inferred_range (e : Engine) (name : String)
    (sets : List (String × MF)) :
    findVar (addVariable e name sets none) name
      = some ⟨name, sets, inferRange sets, false⟩ ∧
    findVar (addOutput e name sets none) name
      = some ⟨name, sets, inferRange sets, true⟩ ∧
    inferRange sets
      = ((exceedPoints sets).foldl min 0, (exceedPoints sets).foldl max 100) := by
  refine ⟨?_, ?_, ?_⟩
  · simpa [findVar, addVariable] using
      findVar_setVar e.vars ⟨name, sets, inferRange sets, false⟩
  · simpa [findVar, addOutput] using
      findVar_setVar e.vars ⟨name, sets, inferRange sets, true⟩
  · rw [inferRange, inferRange_fold sets (0, 100)]
    refine Prod.ext ?_ ?_
    · exact foldl_min_eq_of_mem_iff (fun x => mem_flatMap_exceed sets x) 0
    · exact foldl_max_eq_of_mem_iff (fun x => mem_flatMap_exceed sets x) 100

/-! ## Claim C7 -/

/-- Embeds `aggregateMFs` is pointwise invariant under permutation of the implied
functions: `max` and capped `sum` are commutative, and the `0`/`1`-element
special cases are permutation-stable. -/
theorem aggregateMFs_perm (m : AggMethod) :
    ∀ {l1 l2 : List MF}, l1.Perm l2 → ∀ x : ℚ,
      aggregateMFs m l1 x = aggregateMFs m l2 x := by
  intro l1 l2 h x
  have hlen := h.length_eq
  cases l1 with
  | nil =>
    cases l2 with
    | nil => rfl
    | cons b t2 => simp at hlen
  | cons a t1 =>
    cases l2 with
    | nil => simp at hlen
    | cons b t2 =>
      cases t1 with
      | nil =>
        cases t2 with
        | nil =>
          obtain rfl : a = b := List.singleton_perm_singleton.mp h
          rfl
        | cons d t4 => simp at hlen
      | cons c t3 =>
        cases t2 with
        | nil => simp at hlen
        | cons d t4 =>
          cases m with
          | max =>
            simp only [aggregateMFs]
            exact jsMaxList_perm (h.map fun mf => mf x) (by simp)
          | sum =>
            simp only [aggregateMFs]
            congr 1
            exact List.Perm.sum_eq (h.map fun mf => mf x)

/-- Claim C7 (confirmed): two engines with the same registry and
configuration whose rule lists are permutations of each other produce the
same `evaluate` mapping on every input (rule order is irrelevant to the
result, under both aggregation methods). -/
theorem claim7_rule_order_irrelevant (vars : List Variable)
    (rs1 rs2 : List Rule) (dm : DefuzzMethod) (am : AndMethod) (om : OrMethod)
    (im : ImplMethod) (gm : AggMethod) (res : ℚ) (hperm : rs1.Perm rs2)
    (ins : List (String × ℚ)) (name : String) :
    evaluateMap ⟨vars, rs1, dm, am, om, im, gm, res⟩ ins name
      = evaluateMap ⟨vars, rs2, dm, am, om, im, gm, res⟩ ins name := by
  have hevperm : (evaluateRules ⟨vars, rs1, dm, am, om, im, gm, res⟩
        (fuzzify ⟨vars, rs1, dm, am, om, im, gm, res⟩ ins)).Perm
      (evaluateRules ⟨vars, rs2, dm, am, om, im, gm, res⟩
        (fuzzify ⟨vars, rs2, dm, am, om, im, gm, res⟩ ins)) := by
    unfold evaluateRules
    exact hperm.map _
  have hmo : mentionsOutput (evaluateRules ⟨vars, rs1, dm, am, om, im, gm, res⟩
        (fuzzify ⟨vars, rs1, dm, am, om, im, gm, res⟩ ins)) name
      = mentionsOutput (evaluateRules ⟨vars, rs2, dm, am, om, im, gm, res⟩
        (fuzzify ⟨vars, rs2, dm, am, om, im, gm, res⟩ ins)) name := by
    unfold mentionsOutput
    rw [Bool.eq_iff_iff, List.any_eq_true, List.any_eq_true]
    constructor
    · rintro ⟨re, hre, hp⟩
      exact ⟨re, hevperm.mem_iff.mp hre, hp⟩
    · rintro ⟨re, hre, hp⟩
      exact ⟨re, hevperm.mem_iff.mpr hre, hp⟩
  have hagg : aggregatedMF ⟨vars, rs1, dm, am, om, im, gm, res⟩
        (evaluateRules ⟨vars, rs1, dm, am, om, im, gm, res⟩
          (fuzzify ⟨vars, rs1, dm, am, om, im, gm, res⟩ ins)) name
      = aggregatedMF ⟨vars, rs2, dm, am, om, im, gm, res⟩
        (evaluateRules ⟨vars, rs2, dm, am, om, im, gm, res⟩
          (fuzzify ⟨vars, rs2, dm, am, om, im, gm, res⟩ ins)) name := by
    funext x
    unfold aggregatedMF
    apply aggregateMFs_perm
    unfold impliedList
    exact List.Perm.filterMap _ (List.Perm.flatMap_right _ hevperm)
  simp only [evaluateMap]
  rw [hmo, hagg,
    show findVar ⟨vars, rs1, dm, am, om, im, gm, res⟩ name
        = findVar ⟨vars, rs2, dm, am, om, im, gm, res⟩ name from rfl]

/-- Witness for C7: swapping the two rules of `engPermA` does not change
the crisp output for `f`. -/
theorem claim7_witness :
    evaluateMap engPermA [("t", 5)] "f" = evaluateMap engPermB [("t", 5)] "f" :=
  claim7_rule_order_irrelevant engC45.vars [ruleOk, ruleHalf] [ruleHalf, ruleOk]
    .centroid .min .max .min .max 2 (List.Perm.swap ruleHalf ruleOk [])
    [("t", 5)] "f"

/-! ## Claim C10: bounds through the pipeline -/

theorem jsMinList_mem {l : List ℚ} (h : l ≠ []) : jsMinList l ∈ l := by
  cases l with
  | nil => exact absurd rfl h
  | cons a t =>
    rcases foldl_min_eq_or_mem t a with h1 | h1
    · rw [jsMinList, h1]; exact List.mem_cons_self a t
    · exact List.mem_cons_of_mem a h1

theorem list_sum_nonneg (l : List ℚ) (h : ∀ z ∈ l, 0 ≤ z) : 0 ≤ l.sum := by
  induction l with
  | nil => exact le_refl 0
  | cons a t ih =>
    rw [List.sum_cons]
    have := h a (List.mem_cons_self a t)
    have := ih fun z hz => h z (List.mem_cons_of_mem a hz)
    linarith

theorem list_sum_le_sum (l : List ℚ) (f g : ℚ → ℚ)
    (h : ∀ z ∈ l, f z ≤ g z) : (l.map f).sum ≤ (l.map g).sum := by
  induction l with
  | nil => exact le_refl 0
  | cons a t ih =>
    simp only [List.map_cons, List.sum_cons]
    have := h a (List.mem_cons_self a t)
    have := ih fun z hz => h z (List.mem_cons_of_mem a hz)
    linarith

theorem sum_map_mul_left2 (l : List ℚ) (f : ℚ → ℚ) (r : ℚ) :
    (l.map fun x => r * f x).sum = r * (l.map f).sum := by
  induction l with
  | nil => simp
  | cons a t ih => simp [ih, mul_add]

theorem card_mul_le_sum (l : List ℚ) (lo : ℚ) (h : ∀ z ∈ l, lo ≤ z) :
    (l.length : ℚ) * lo ≤ l.sum := by
  induction l with
  | nil => simp
  | cons a t ih =>
    simp only [List.length_cons, List.sum_cons]
    have := h a (List.mem_cons_self a t)
    have := ih fun z hz => h z (List.mem_cons_of_mem a hz)
    push_cast
    linarith

theorem sum_le_card_mul (l : List ℚ) (hi : ℚ) (h : ∀ z ∈ l, z ≤ hi) :
    l.sum ≤ (l.length : ℚ) * hi := by
  induction l with
  | nil => simp
  | cons a t ih =>
    simp only [List.length_cons, List.sum_cons]
    have := h a (List.mem_cons_self a t)
    have := ih fun z hz => h z (List.mem_cons_of_mem a hz)
    push_cast
    linarith

/-- The algebraic-sum S-norm keeps values in `[0,1]`. -/
theorem sNormSum_mem01 (l : List ℚ) (h : ∀ v ∈ l, 0 ≤ v ∧ v ≤ 1) :
    0 ≤ sNormSum l ∧ sNormSum l ≤ 1 := by
  rw [sNormSum]
  suffices aux : ∀ (l : List ℚ) (acc : ℚ), (∀ v ∈ l, 0 ≤ v ∧ v ≤ 1) →
      0 ≤ acc → acc ≤ 1 →
      0 ≤ l.foldl (fun acc v => acc + v - acc * v) acc ∧
        l.foldl (fun acc v => acc + v - acc * v) acc ≤ 1 by
    exact aux l 0 h (le_refl 0) (by norm_num)
  intro l
  induction l with
  | nil => intro acc _ h0 h1; exact ⟨h0, h1⟩
  | cons v t ih =>
    intro acc hall h0 h1
    rw [List.foldl_cons]
    have hv := hall v (List.mem_cons_self v t)
    refine ih (acc + v - acc * v)
      (fun w hw => hall w (List.mem_cons_of_mem v hw)) ?_ ?_
    · nlinarith [hv.1, hv.2]
    · nlinarith [hv.1, hv.2]

/-- The product T-norm keeps values in `[0,1]`. -/
theorem tNormProduct_mem01 (l : List ℚ) (h : ∀ v ∈ l, 0 ≤ v ∧ v ≤ 1) :
    0 ≤ tNormProduct l ∧ tNormProduct l ≤ 1 := by
  rw [tNormProduct]
  suffices aux : ∀ (l : List ℚ) (acc : ℚ), (∀ v ∈ l, 0 ≤ v ∧ v ≤ 1) →
      0 ≤ acc → acc ≤ 1 →
      0 ≤ l.foldl (· * ·) acc ∧ l.foldl (· * ·) acc ≤ 1 by
    exact aux l 1 h (by norm_num) (le_refl 1)
  intro l
  induction l with
  | nil => intro acc _ h0 h1; exact ⟨h0, h1⟩
  | cons v t ih =>
    intro acc hall h0 h1
    rw [List.foldl_cons]
    have hv := hall v (List.mem_cons_self v t)
    refine ih (acc * v)
      (fun w hw => hall w (List.mem_cons_of_mem v hw))
      (mul_nonneg h0 hv.1) ?_
    nlinarith [hv.1, hv.2]

/-- Every OR operator keeps `[0,1]` values in `[0,1]`. -/
theorem getOrOperator_mem01 (om : OrMethod) (l : List ℚ)
    (h : ∀ v ∈ l, 0 ≤ v ∧ v ≤ 1) :
    0 ≤ getOrOperator om l ∧ getOrOperator om l ≤ 1 := by
  cases om with
  | max =>
    show 0 ≤ jsMaxList l ∧ jsMaxList l ≤ 1
    cases hl : l with
    | nil => norm_num [jsMaxList]
    | cons a t =>
      have hmem : jsMaxList l ∈ l := jsMaxList_mem (by rw [hl]; simp)
      rw [← hl]
      exact h _ hmem
  | sum => exact sNormSum_mem01 l h
  | probor => exact sNormSum_mem01 l h

/-- Every AND operator keeps `[0,1]` values in `[0,1]`. -/
theorem getAndOperator_mem01 (am : AndMethod) (l : List ℚ)
    (h : ∀ v ∈ l, 0 ≤ v ∧ v ≤ 1) :
    0 ≤ getAndOperator am l ∧ getAndOperator am l ≤ 1 := by
  cases am with
  | min =>
    show 0 ≤ jsMinList l ∧ jsMinList l ≤ 1
    cases hl : l with
    | nil => norm_num [jsMinList]
    | cons a t =>
      have hmem : jsMinList l ∈ l := jsMinList_mem (by rw [hl]; simp)
      rw [← hl]
      exact h _ hmem
  | product => exact tNormProduct_mem01 l h

/-- Embeds `varMemberships[term] || 0` stays in `[0,1]` when the record does. -/
theorem lookupDeg_mem01 (ms : List (String × ℚ)) (t : String)
    (h : ∀ q ∈ ms, 0 ≤ q.2 ∧ q.2 ≤ 1) :
    0 ≤ lookupDeg ms t ∧ lookupDeg ms t ≤ 1 := by
  rw [lookupDeg]
  cases hf : ms.find? (fun p => p.1 == t) with
  | none => norm_num
  | some q =>
    simp only [Option.map_some', Option.getD_some]
    exact h q (List.mem_of_find?_eq_some hf)

/-- Fuzzification of an engine whose membership functions respect the
`[0,1]` contract produces degrees in `[0,1]`. -/
theorem fuzzify_memberships01 (e : Engine) (ins : List (String × ℚ))
    (h01 : engineMFsIn01 e) :
    ∀ rec ∈ fuzzify e ins, ∀ q ∈ rec.memberships, 0 ≤ q.2 ∧ q.2 ≤ 1 := by
  intro rec hrec q hq
  rw [fuzzify] at hrec
  rcases List.mem_filterMap.mp hrec with ⟨p, _, hfp⟩
  cases hfv : findVar e p.1 with
  | none => rw [hfv] at hfp; cases hfp
  | some v0 =>
    rw [hfv] at hfp
    dsimp only at hfp
    by_cases ho : v0.isOutput = true
    · rw [if_pos ho] at hfp; cases hfp
    · rw [if_neg ho] at hfp
      simp only [Option.some.injEq] at hfp
      subst hfp
      rcases List.mem_map.mp hq with ⟨s, hs, rfl⟩
      exact h01 v0 (List.mem_of_find?_eq_some hfv) s hs p.2

/-- A successful `fuzzLookup` returns degrees in `[0,1]`. -/
theorem fuzzLookup_mem01 (fz : List FuzzRec) (v : String)
    (ms : List (String × ℚ))
    (h : ∀ rec ∈ fz, ∀ q ∈ rec.memberships, 0 ≤ q.2 ∧ q.2 ≤ 1)
    (hms : fuzzLookup fz v = some ms) :
    ∀ q ∈ ms, 0 ≤ q.2 ∧ q.2 ≤ 1 := by
  rw [fuzzLookup] at hms
  rcases Option.map_eq_some'.mp hms with ⟨rec, hrec, rfl⟩
  exact h rec (List.mem_of_find?_eq_some hrec)

/-- Each antecedent clause strength lies in `[0,1]`. -/
theorem clauseStrength_mem01 (e : Engine) (ms : List (String × ℚ))
    (ts : AnteTerms) (h : ∀ q ∈ ms, 0 ≤ q.2 ∧ q.2 ≤ 1) :
    0 ≤ clauseStrength e ms ts ∧ clauseStrength e ms ts ≤ 1 := by
  rw [clauseStrength]
  have hts : ∀ v ∈ (anteTermList ts).map (lookupDeg ms), 0 ≤ v ∧ v ≤ 1 := by
    intro v hv
    rcases List.mem_map.mp hv with ⟨t, _, rfl⟩
    exact lookupDeg_mem01 ms t h
  generalize hL : (anteTermList ts).map (lookupDeg ms) = L at hts ⊢
  split_ifs with hlen
  · exact getOrOperator_mem01 e.orMethod L hts
  · cases L with
    | nil => norm_num
    | cons v t =>
      simp only [List.headD_cons]
      exact hts v (List.mem_cons_self v t)

/-- A rule's weighted firing strength is non-negative whenever the
fuzzified degrees are in `[0,1]` and its weight (if any) is
non-negative. -/
theorem ruleFiring_nonneg (e : Engine) (fz : List FuzzRec) (r : Rule)
    (hfz : ∀ rec ∈ fz, ∀ q ∈ rec.memberships, 0 ≤ q.2 ∧ q.2 ≤ 1)
    (hw : ∀ w : ℚ, r.weight = some w → 0 ≤ w) :
    0 ≤ ruleFiring e fz r := by
  have hstr : ∀ s ∈ antecedentStrengths e fz r, 0 ≤ s ∧ s ≤ 1 := by
    intro s hs
    rw [antecedentStrengths] at hs
    rcases List.mem_filterMap.mp hs with ⟨p, _, hfp⟩
    cases hms : fuzzLookup fz p.1 with
    | none => rw [hms] at hfp; cases hfp
    | some ms =>
      rw [hms] at hfp
      simp only [Option.some.injEq] at hfp
      subst hfp
      exact clauseStrength_mem01 e ms p.2 (fuzzLookup_mem01 fz p.1 ms hfz hms)
  have hbase : 0 ≤ (if 0 < (antecedentStrengths e fz r).length
      then getAndOperator e.andMethod (antecedentStrengths e fz r) else 0) := by
    split_ifs with hlen
    · exact (getAndOperator_mem01 e.andMethod _ hstr).1
    · exact le_refl 0
  rw [ruleFiring]
  cases hw2 : r.weight with
  | none => exact hbase
  | some w => exact mul_nonneg hbase (hw w hw2)

/-- Every contribution strength recorded by `evaluateRules` is
non-negative under the same hypotheses. -/
theorem evaluateRules_strengths_nonneg (e : Engine) (ins : List (String × ℚ))
    (h01 : engineMFsIn01 e) (hw : weightsNonneg e) :
    ∀ re ∈ evaluateRules e (fuzzify e ins),
      ∀ c ∈ re.outputContributions, 0 ≤ c.2.2 := by
  intro re hre c hc
  rw [evaluateRules] at hre
  rcases List.mem_map.mp hre with ⟨r, hrmem, heq⟩
  subst heq
  simp only [List.mem_map] at hc
  rcases hc with ⟨d, _, rfl⟩
  exact ruleFiring_nonneg e (fuzzify e ins) r
    (fuzzify_memberships01 e ins h01) (hw r hrmem)

/-- Every implied membership function is pointwise non-negative. -/
theorem impliedList_nonneg (e : Engine) (evals : List RuleEval) (ov : String)
    (h01 : engineMFsIn01 e)
    (hstr : ∀ re ∈ evals, ∀ c ∈ re.outputContributions, 0 ≤ c.2.2) :
    ∀ g ∈ impliedList e evals ov, ∀ x : ℚ, 0 ≤ g x := by
  intro g hg x
  rw [impliedList] at hg
  rcases List.mem_filterMap.mp hg with ⟨c, hc, heq⟩
  rcases List.mem_flatMap.mp hc with ⟨re, hre, hcre⟩
  have hs : 0 ≤ c.2.2 := hstr re hre c hcre
  by_cases hov : (c.1 == ov) = true
  · rw [if_pos hov] at heq
    cases hfv : findVar e c.1 with
    | none => rw [hfv] at heq; cases heq
    | some vr =>
      rw [hfv] at heq
      dsimp only at heq
      rcases Option.map_eq_some'.mp heq with ⟨mf, hmf, rfl⟩
      have hvr : vr ∈ e.vars := List.mem_of_find?_eq_some hfv
      rcases Option.map_eq_some'.mp hmf with ⟨pr, hpr, rfl⟩
      have hmf01 := h01 vr hvr pr (List.mem_of_find?_eq_some hpr) x
      cases him : e.implicationMethod with
      | min =>
        simp only [applyImplication]
        exact le_min hmf01.1 hs
      | product =>
        simp only [applyImplication]
        exact mul_nonneg hmf01.1 hs
  · rw [if_neg hov] at heq; cases heq

/-- The aggregated output function is pointwise non-negative. -/
theorem aggregateMFs_nonneg (m : AggMethod) (mfs : List MF)
    (h : ∀ g ∈ mfs, ∀ x : ℚ, 0 ≤ g x) (x : ℚ) :
    0 ≤ aggregateMFs m mfs x := by
  cases mfs with
  | nil => exact le_refl 0
  | cons a t =>
    cases t with
    | nil => exact h a (List.mem_cons_self a []) x
    | cons b t2 =>
      cases m with
      | max =>
        simp only [aggregateMFs]
        have ha : a x ∈ (a :: b :: t2).map (fun mf => mf x) := by simp
        exact (h a (by simp) x).trans (le_jsMaxList ha)
      | sum =>
        simp only [aggregateMFs]
        refine le_min (by norm_num) ?_
        refine list_sum_nonneg _ ?_
        intro z hz
        rcases List.mem_map.mp hz with ⟨g, hgmem, rfl⟩
        exact h g hgmem x

/-- The bisector walk returns one of the sample points. -/
theorem bisectorFind_mem (mf : MF) (step half : ℚ) :
    ∀ (l : List ℚ) (acc x : ℚ), bisectorFind mf step half l acc = some x →
      x ∈ l := by
  intro l
  induction l with
  | nil => intro acc x h; cases h
  | cons z rest ih =>
    intro acc x h
    simp only [bisectorFind] at h
    by_cases hc : half ≤ acc + mf z * step
    · rw [if_pos hc] at h
      simp only [Option.some.injEq] at h
      subst h
      exact List.mem_cons_self z rest
    · rw [if_neg hc] at h
      exact List.mem_cons_of_mem z (ih (acc + mf z * step) x h)

/-- Every point collected by the `meanOfMaximum` scan comes from its
initial state or from the scanned list. -/
theorem momFold_mem (mf : MF) :
    ∀ (l : List ℚ) (st : ℚ × List ℚ), ∀ z ∈ (l.foldl (momStep mf) st).2,
      z ∈ st.2 ∨ z ∈ l := by
  intro l
  induction l with
  | nil => intro st z hz; exact Or.inl hz
  | cons x rest ih =>
    intro st z hz
    rw [List.foldl_cons] at hz
    rcases ih (momStep mf st x) z hz with h | h
    · simp only [momStep] at h
      split_ifs at h with h1 h2
      · simp only [List.mem_singleton] at h
        subst h
        exact Or.inr (List.mem_cons_self z rest)
      · rcases List.mem_append.mp h with h3 | h3
        · exact Or.inl h3
        · simp only [List.mem_singleton] at h3
          subst h3
          exact Or.inr (List.mem_cons_self z rest)
      · exact Or.inl h
    · exact Or.inr (List.mem_cons_of_mem x h)

/-- The result of the `som`/`lom` scan is the seed or one of the scanned
points. -/
theorem maxScanFold_snd (mf : MF) :
    ∀ (l : List ℚ) (st : ℚ × ℚ), (l.foldl (maxScanStep mf) st).2 = st.2 ∨
      (l.foldl (maxScanStep mf) st).2 ∈ l := by
  intro l
  induction l with
  | nil => intro st; exact Or.inl rfl
  | cons x rest ih =>
    intro st
    rw [List.foldl_cons]
    rcases ih (maxScanStep mf st x) with h | h
    · by_cases hc : st.1 < mf x
      · rw [h, maxScanStep, if_pos hc]
        exact Or.inr (List.mem_cons_self x rest)
      · rw [h, maxScanStep, if_neg hc]
        exact Or.inl rfl
    · exact Or.inr (List.mem_cons_of_mem x h)

/-- The arithmetic mean of a non-empty list of values in `[lo,hi]` lies in
`[lo,hi]`. -/
theorem mean_mem_bounds (l : List ℚ) (hne : l ≠ []) (lo hi : ℚ)
    (h : ∀ z ∈ l, lo ≤ z ∧ z ≤ hi) :
    lo ≤ l.sum / (l.length : ℚ) ∧ l.sum / (l.length : ℚ) ≤ hi := by
  have hlen : (0 : ℚ) < (l.length : ℚ) := by
    have := List.length_pos.mpr hne
    exact_mod_cast this
  constructor
  · rw [le_div_iff hlen]
    have := card_mul_le_sum l lo fun z hz => (h z hz).1
    linarith
  · rw [div_le_iff hlen]
    have := sum_le_card_mul l hi fun z hz => (h z hz).2
    linarith

/-- Any value produced by any of the five defuzzifiers on a pointwise
non-negative function over an ordered range with positive integer
resolution lies within the range. -/
theorem defuzzO_mem_range (dm : DefuzzMethod) (mf : MF) (mn mx : ℚ) (n : ℕ)
    (hmn : mn ≤ mx) (hn : 0 < n) (hmf : ∀ x : ℚ, 0 ≤ mf x) (y : ℚ)
    (hy : defuzzO dm mf mn mx (n : ℚ) = some y) :
    mn ≤ y ∧ y ≤ mx := by
  rcases eq_or_lt_of_le hmn with rfl | hlt
  · exfalso
    have hstz : (mn - mn) / (n : ℚ) ≤ 0 := by simp
    have hup : samplePts mn mn (n : ℚ) = none := by
      rw [samplePts]
      exact ptsAux_stuck hstz _ mn mn (le_refl mn)
    have hdn : samplePtsDown mn mn (n : ℚ) = none := by
      rw [samplePtsDown]
      exact ptsDownAux_stuck hstz _ mn mn (le_refl mn)
    cases dm <;>
      simp only [defuzzO, centroidO, bisectorO, momO, somO, lomO, hup, hdn,
        Option.map_none'] at hy
    all_goals exact Option.noConfusion hy
  · have hn0 : (0 : ℚ) < (n : ℚ) := by exact_mod_cast hn
    have hst : 0 < (mx - mn) / (n : ℚ) := div_pos (by linarith) hn0
    have hpts := samplePts_nat mn mx n hlt hn
    have hptsd := samplePtsDown_nat mn mx n hlt hn
    set l := (List.range (n + 1)).map
      (fun i : ℕ => mn + i * ((mx - mn) / (n : ℚ))) with hldef
    set ld := (List.range (n + 1)).map
      (fun i : ℕ => mx - i * ((mx - mn) / (n : ℚ))) with hlddef
    have hb : ∀ z ∈ l, mn ≤ z ∧ z ≤ mx := fun z hz =>
      ptsAux_mem_bounds (le_of_lt hst) _ mn mx l hpts z hz
    have hbd : ∀ z ∈ ld, mn ≤ z ∧ z ≤ mx := fun z hz =>
      ptsDownAux_mem_bounds (le_of_lt hst) _ mx mn ld hptsd z hz
    have hmid : mn ≤ (mn + mx) / 2 ∧ (mn + mx) / 2 ≤ mx :=
      ⟨by linarith, by linarith⟩
    cases dm with
    | centroid =>
      simp only [defuzzO, centroidO, hpts, Option.map_some',
        Option.some.injEq] at hy
      by_cases hsm : (l.map mf).sum = 0
      · rw [if_pos hsm] at hy
        exact hy ▸ hmid
      · rw [if_neg hsm] at hy
        have hsm0 : 0 < (l.map mf).sum := by
          refine lt_of_le_of_ne (list_sum_nonneg _ ?_) (Ne.symm hsm)
          intro z hz
          rcases List.mem_map.mp hz with ⟨w, _, rfl⟩
          exact hmf w
        subst hy
        constructor
        · rw [le_div_iff hsm0]
          calc mn * (l.map mf).sum = (l.map fun z => mn * mf z).sum :=
              (sum_map_mul_left2 l mf mn).symm
            _ ≤ (l.map fun z => z * mf z).sum :=
              list_sum_le_sum l _ _ fun z hz =>
                mul_le_mul_of_nonneg_right (hb z hz).1 (hmf z)
        · rw [div_le_iff hsm0]
          calc (l.map fun z => z * mf z).sum
              ≤ (l.map fun z => mx * mf z).sum :=
              list_sum_le_sum l _ _ fun z hz =>
                mul_le_mul_of_nonneg_right (hb z hz).2 (hmf z)
            _ = mx * (l.map mf).sum := sum_map_mul_left2 l mf mx
    | bisector =>
      simp only [defuzzO, bisectorO, hpts, Option.map_some',
        Option.some.injEq] at hy
      by_cases htot : (l.map fun z => mf z * ((mx - mn) / (n : ℚ))).sum = 0
      · rw [if_pos htot] at hy
        exact hy ▸ hmid
      · rw [if_neg htot] at hy
        cases hbf : bisectorFind mf ((mx - mn) / (n : ℚ))
            ((l.map fun z => mf z * ((mx - mn) / (n : ℚ))).sum / 2) l 0 with
        | some x =>
          rw [hbf] at hy
          dsimp only at hy
          exact hy ▸ hb x (bisectorFind_mem mf _ _ l 0 x hbf)
        | none =>
          rw [hbf] at hy
          dsimp only at hy
          exact hy ▸ ⟨hmn, le_refl mx⟩
    | mom =>
      simp only [defuzzO, momO, hpts, Option.map_some',
        Option.some.injEq] at hy
      by_cases hp2 : (l.foldl (momStep mf) (0, [])).2 = []
      · rw [if_pos hp2] at hy
        exact hy ▸ hmid
      · rw [if_neg hp2] at hy
        subst hy
        refine mean_mem_bounds _ hp2 mn mx ?_
        intro z hz
        rcases momFold_mem mf l (0, []) z hz with h | h
        · cases h
        · exact hb z h
    | som =>
      simp only [defuzzO, somO, hpts, Option.map_some',
        Option.some.injEq] at hy
      subst hy
      rcases maxScanFold_snd mf l (0, mn) with h | h
      · rw [h]
        exact ⟨le_refl mn, hmn⟩
      · exact hb _ h
    | lom =>
      simp only [defuzzO, lomO, hptsd, Option.map_some',
        Option.some.injEq] at hy
      subst hy
      rcases maxScanFold_snd mf ld (0, mx) with h | h
      · rw [h]
        exact ⟨hmn, le_refl mx⟩
      · exact hbd _ h

/-- Claim C10 (amended): for an engine whose output ranges are ordered,
whose resolution is a positive integer, whose membership functions respect
the `[0,1]` contract, and whose rule weights (when present) are
non-negative, every crisp value `evaluate` produces lies within the
output variable's registered range — under all five defuzzification
methods.  (Without the weight condition the claim fails:
`claim10_counterexample`.) -/
theorem claim10_outputs_in_range (e : Engine) (n : ℕ)
    (hres : e.resolution = (n : ℚ)) (hn : 0 < n)
    (h01 : engineMFsIn01 e) (hw : weightsNonneg e) (hrg : rangesOrdered e)
    (ins : List (String × ℚ)) (name : String) (y : ℚ)
    (hy : evaluateMap e ins name = some y) :
    ∃ v, findVar e name = some v ∧ v.range.1 ≤ y ∧ y ≤ v.range.2 := by
  simp only [evaluateMap] at hy
  by_cases hmo : mentionsOutput (evaluateRules e (fuzzify e ins)) name = true
  · rw [if_pos hmo] at hy
    cases hfv : findVar e name with
    | none => rw [hfv] at hy; cases hy
    | some vr =>
      rw [hfv] at hy
      dsimp only at hy
      have hstr := evaluateRules_strengths_nonneg e ins h01 hw
      have hagg : ∀ x : ℚ,
          0 ≤ aggregatedMF e (evaluateRules e (fuzzify e ins)) name x := by
        intro x
        rw [aggregatedMF]
        exact aggregateMFs_nonneg e.aggregationMethod _
          (impliedList_nonneg e _ name h01 hstr) x
      have hvr : vr ∈ e.vars := List.mem_of_find?_eq_some hfv
      rw [hres] at hy
      exact ⟨vr, rfl, defuzzO_mem_range e.defuzzificationMethod _ vr.range.1
        vr.range.2 n (hrg vr hvr) hn hagg y hy⟩
  · rw [if_neg hmo] at hy
    cases hy

/-- Witness for C10 at the concrete engine `engWit` (resolution `4`),
whose crisp output for `f` on `t = 5` is `25 ∈ [0,100]`. -/
theorem claim10_witness :
    ∃ v, findVar engWit "f" = some v ∧ v.range.1 ≤ 25 ∧ (25 : ℚ) ≤ v.range.2 := by
  have hvars : engWit.vars
      = [⟨"t", [("c", mfOne)], (0, 100), false⟩,
         ⟨"f", [("l", mfStep50)], (0, 100), true⟩] := rfl
  refine claim10_outputs_in_range engWit 4 rfl (by norm_num) ?_ ?_ ?_
    [("t", 5)] "f" 25 (by with_unfolding_all decide)
  · intro v hv p hp x
    rw [hvars] at hv
    rcases List.mem_cons.mp hv with rfl | hv
    · simp only [List.mem_cons, List.not_mem_nil, or_false] at hp
      subst hp
      constructor <;> norm_num [mfOne]
    · simp only [List.mem_cons, List.not_mem_nil, or_false] at hv
      subst hv
      simp only [List.mem_cons, List.not_mem_nil, or_false] at hp
      subst hp
      show 0 ≤ mfStep50 x ∧ mfStep50 x ≤ 1
      rw [mfStep50]
      split_ifs <;> norm_num
  · intro r hr w hwr
    have hrules : engWit.rules = [ruleOk] := rfl
    rw [hrules] at hr
    simp only [List.mem_cons, List.not_mem_nil, or_false] at hr
    subst hr
    rw [show ruleOk.weight = none from rfl] at hwr
    cases hwr
  · intro v hv
    rw [hvars] at hv
    rcases List.mem_cons.mp hv with rfl | hv
    · norm_num
    · simp only [List.mem_cons, List.not_mem_nil, or_false] at hv
      subst hv
      norm_num

/-! ## Counterexamples for the corrected claims -/

/-- Claim C1 is false as stated: on the constant-zero aggregated function
over the range `[0,10]` at resolution `10`, `smallestOfMaximum` returns `0`
and `largestOfMaximum` returns `10`, not the midpoint `5` (the two scans
have no zero-membership fallback). -/
theorem claim1_counterexample :
    somO (fun _ => 0) 0 10 10 = some 0 ∧ lomO (fun _ => 0) 0 10 10 = some 10 ∧
    (0 : ℚ) ≠ (0 + 10) / 2 ∧ (10 : ℚ) ≠ (0 + 10) / 2 := by
  with_unfolding_all decide

/-- Claim C2 is false as stated: for the single membership function
`triangular(5,10,15)` the only probe point exceeding `0.01` is `10`, so the
claim predicts the stored range `(10, 10)` (`specInferRange`), but
`inferRange` — whose `min`/`max` are seeded at `0`/`100`, not only when no
point exceeds the threshold — stores `(0, 100)`. -/
theorem claim2_counterexample :
    inferRange [("m", triangularF 5 10 15)] = (0, 100) ∧
    (findVar (addVariable defaultEngine "v" [("m", triangularF 5 10 15)] none)
        "v").map Variable.range = some (0, 100) ∧
    specInferRange [("m", triangularF 5 10 15)] = (10, 10) ∧
    ((0, 100) : ℚ × ℚ) ≠ (10, 10) := by
  with_unfolding_all decide

/-- Claim C3 is false as stated: the triple `(0, 5, 5)` satisfies
`a ≤ b ≤ c`, so `triangular` accepts it, but the returned function gives
`f(b) = f(5) = 0`, not `1` (the `x ≥ c` branch wins at the peak). -/
theorem claim3_counterexample :
    (0 : ℚ) ≤ 5 ∧ (5 : ℚ) ≤ 5 ∧ triangularF 0 5 5 5 = 0 ∧ (0 : ℚ) ≠ 1 := by
  with_unfolding_all decide

/-- Claim C4 is false as stated: `addRules [ruleOk, ruleBadVar]` on `engC45`
throws at the second rule, but the first rule has already been registered —
the rule list afterwards is `[ruleOk]`, not the empty list it held before
the call. -/
theorem claim4_counterexample :
    (addRulesRun engC45 [ruleOk, ruleBadVar]).2 = some (.unknownAnteVar "u") ∧
    (addRulesRun engC45 [ruleOk, ruleBadVar]).1.rules = [ruleOk] ∧
    engC45.rules = [] ∧ ([ruleOk] : List Rule) ≠ [] := by
  with_unfolding_all decide

/-- Claim C5 is false as stated: `ruleMixed`'s antecedent names the
unregistered variable `u`, but `addRule` on `engC45` throws the UnknownTerm
error for the earlier entry `("t", "zzz")`, not an UnknownVariable error;
the rule is still not registered (the rule list is unchanged). -/
theorem claim5_counterexample :
    validateErr engC45 ruleMixed = some (.unknownAnteTerm "t" "zzz") ∧
    validateErr engC45 ruleMixed ≠ some (.unknownAnteVar "t") ∧
    validateErr engC45 ruleMixed ≠ some (.unknownAnteVar "u") ∧
    (findVar engC45 "u").isNone = true ∧
    (addRulesRun engC45 [ruleMixed]).1.rules = engC45.rules := by
  with_unfolding_all decide

/-- Claim C9 is false as stated: on the degenerate range `[5,5]` the
sampling step is `0` and the comparison loops never terminate (the fuel
model returns `none`; `ptsAux_stuck` below shows `none` is reached at every
fuel), so neither call returns `true`. -/
theorem claim9_counterexample :
    isSubsetO mfOne mfOne (5, 5) 100 = none ∧
    isEqualO mfOne mfOne (5, 5) 100 = none ∧
    (none : Option Bool) ≠ some true := by
  with_unfolding_all decide

/-- Claim C10 is false as stated: `engC10` has ordered ranges, positive
resolution `1`, and only non-negative (indeed `[0,1]`-valued) membership
functions, yet — because one rule carries the weight `-1` — `evaluate`
produces `10` for the output `y`, far outside its registered range `[0,1]`. -/
theorem claim10_counterexample :
    evaluateMap engC10 [("t", 37)] "y" = some 10 ∧
    (findVar engC10 "y").map Variable.range = some (0, 1) ∧
    engC10.resolution = 1 ∧
    rangesOrdered engC10 ∧ engineMFsNonneg engC10 ∧
    ¬ (10 : ℚ) ≤ 1 := by
  refine ⟨by with_unfolding_all decide, by with_unfolding_all decide, rfl, ?_, ?_, by norm_num⟩
  · intro v hv
    simp only [engC10, List.mem_cons, List.not_mem_nil, or_false] at hv
    rcases hv with rfl | rfl <;> norm_num
  · intro v hv p hp x
    simp only [engC10, List.mem_cons, List.not_mem_nil, or_false] at hv
    rcases hv with rfl | rfl <;>
      simp only [List.mem_cons, List.not_mem_nil, or_false] at hp
    · rcases hp with rfl
      simp [mfOne]
    · rcases hp with rfl | rfl
      · simp only [mfSpikeAt0]
        split <;> norm_num
      · simp only [mfSpikeAt1]
        split <;> norm_num

end FuzzyEngine
